import Mathlib

/-!
Verification of the online-judge core against its design specification.

The Rust sources are shallowly embedded: pure text processing is modelled
over `List Char` (a Rust `&str` is its list of characters), `f64` scores
and seconds are modelled as exact rationals, `u32` casts carry an explicit
`% 2^32`, fallible operations return `Option`, and ambient I/O (file
reads, process execution) is passed in as explicit data.
-/

namespace OJ

/-! ## Text utilities shared by the sandbox runners

Models of the `&str` methods used by `compare_output_standard`,
`compare_output_strict` and `process_meta_content` in
`src/sandbox/isolate_runner.rs`, `src/sandbox/simple_runner.rs` and
`src/sandbox/testing.rs`. -/

/-- Model of Rust `char::is_whitespace` (the Unicode `White_Space` property). -/
def isRustWhitespace (c : Char) : Bool :=
  c = ' ' || c = '\t' || c = '\n' || (c.toNat = 0x0b) || (c.toNat = 0x0c) || c = '\r' ||
  (c.toNat = 0x85) || (c.toNat = 0xa0) || (c.toNat = 0x1680) ||
  (0x2000 ≤ c.toNat && c.toNat ≤ 0x200a) ||
  (c.toNat = 0x2028) || (c.toNat = 0x2029) || (c.toNat = 0x202f) ||
  (c.toNat = 0x205f) || (c.toNat = 0x3000)

/-- Model of Rust `str::trim_end`: drop trailing whitespace characters. -/
def trimEnd (l : List Char) : List Char :=
  (l.reverse.dropWhile isRustWhitespace).reverse

/-- Split a character list at every newline character; the segments do not
contain the newline itself.  A terminating newline yields a trailing empty
segment, so the result is always nonempty. -/
def splitOnNl : List Char → List (List Char)
  | [] => [[]]
  | c :: rest =>
    if c = '\n' then [] :: splitOnNl rest
    else
      match splitOnNl rest with
      | s :: ss => (c :: s) :: ss
      | [] => [[c]]

/-- Drop one trailing carriage return, if present (the `\r` of a `\r\n`
line ending). -/
def stripCR (l : List Char) : List Char :=
  if l.getLast? = some '\r' then l.dropLast else l

/-- Model of Rust `str::lines`: lines are terminated by `\n` or `\r\n`, the
final terminator is optional, and a final unterminated line keeps any
trailing `\r`. -/
def rustLines (s : List Char) : List (List Char) :=
  (splitOnNl s).dropLast.map stripCR ++
    (if (splitOnNl s).getLastD [] = [] then [] else [(splitOnNl s).getLastD []])

/-- Model of `Vec::join("\n")`. -/
def joinNl : List (List Char) → List Char
  | [] => []
  | [l] => l
  | l :: ls => l ++ '\n' :: joinNl ls

/-- The `normalize` closure of `compare_output_standard`:
`s.lines().map(|line| line.trim_end()).collect::<Vec<_>>().join("\n").trim_end()`. -/
def normalizeL (s : List Char) : List Char :=
  trimEnd (joinNl ((rustLines s).map trimEnd))

/-- Model of `compare_output_standard` (identical in
`isolate_runner.rs`, `simple_runner.rs` and `testing.rs`): compare the
normalizations of program output and expected output. -/
def compare_output_standard (program_output expected_output : String) : Bool :=
  normalizeL program_output.data == normalizeL expected_output.data

/-- Model of `compare_output_strict`: exact string equality. -/
def compare_output_strict (program_output expected_output : String) : Bool :=
  program_output == expected_output

/-! ### Facts about the text utilities -/

theorem splitOnNl_ne_nil (s : List Char) : splitOnNl s ≠ [] := by
  induction s with
  | nil => simp [splitOnNl]
  | cons c rest ih =>
    simp only [splitOnNl]
    split
    · simp
    · cases h : splitOnNl rest with
      | nil => simp
      | cons a as => simp

theorem splitOnNl_snoc_nl (a : List Char) :
    splitOnNl (a ++ ['\n']) = splitOnNl a ++ [[]] := by
  induction a with
  | nil => simp [splitOnNl]
  | cons c rest ih =>
    by_cases hc : c = '\n'
    · simp [splitOnNl, hc, ih]
    · cases h : splitOnNl rest with
      | nil => exact absurd h (splitOnNl_ne_nil rest)
      | cons s ss =>
        rw [h] at ih
        simp [splitOnNl, hc, ih, h]

theorem splitOnNl_snoc (a : List Char) (c : Char) (hc : c ≠ '\n') :
    ∃ M L, splitOnNl a = M ++ [L] ∧ splitOnNl (a ++ [c]) = M ++ [L ++ [c]] := by
  induction a with
  | nil => exact ⟨[], [], rfl, by simp [splitOnNl, hc]⟩
  | cons d rest ih =>
    obtain ⟨M, L, h1, h2⟩ := ih
    by_cases hd : d = '\n'
    · exact ⟨[] :: M, L, by simp [splitOnNl, hd, h1], by simp [splitOnNl, hd, h2]⟩
    · cases M with
      | nil =>
        refine ⟨[], d :: L, ?_, ?_⟩
        · simp [splitOnNl, hd, h1]
        · simp [splitOnNl, hd, h2]
      | cons s ss =>
        refine ⟨(d :: s) :: ss, L, ?_, ?_⟩
        · simp [splitOnNl, hd, h1]
        · simp [splitOnNl, hd, h2]

theorem trimEnd_snoc_ws (l : List Char) (c : Char) (hc : isRustWhitespace c = true) :
    trimEnd (l ++ [c]) = trimEnd l := by
  simp [trimEnd, List.dropWhile, hc]

theorem trimEnd_stripCR (l : List Char) : trimEnd (stripCR l) = trimEnd l := by
  unfold stripCR
  split
  · next h =>
    have hne : l ≠ [] := by
      intro hnil; rw [hnil] at h; simp at h
    have hlast : l.getLast hne = '\r' := by
      have := List.getLast?_eq_getLast l hne
      rw [h] at this
      exact (Option.some_injective _ this.symm)
    conv_rhs => rw [(List.dropLast_append_getLast hne).symm]
    rw [hlast, trimEnd_snoc_ws]
    rfl
  · rfl

theorem joinNl_snoc (M : List (List Char)) (x : List Char) :
    joinNl (M ++ [x]) = if M = [] then x else joinNl M ++ '\n' :: x := by
  induction M with
  | nil => simp [joinNl]
  | cons m M ih =>
    cases M with
    | nil => simp [joinNl]
    | cons n N =>
      have h2 : ∀ (R : List (List Char)), R ≠ [] → joinNl (m :: R) = m ++ '\n' :: joinNl R := by
        intro R hR
        cases R with
        | nil => exact absurd rfl hR
        | cons r rs => rfl
      have h1 : (m :: n :: N) ++ [x] = m :: ((n :: N) ++ [x]) := rfl
      rw [h1, h2 _ (by simp), ih]
      rw [if_neg (by simp), if_neg (by simp), h2 (n :: N) (by simp)]
      simp

theorem trimEnd_joinNl_snoc_nil (M : List (List Char)) :
    trimEnd (joinNl (M ++ [[]])) = trimEnd (joinNl M) := by
  rw [joinNl_snoc]
  split
  · next h => simp [h, joinNl]
  · next h =>
    have : joinNl M ++ '\n' :: ([] : List Char) = joinNl M ++ ['\n'] := rfl
    rw [this, trimEnd_snoc_ws]
    rfl

/-- Proof-side reformulation of `normalizeL`: normalize every raw segment
(including a trailing empty one) before joining. -/
def normalizeAlt (s : List Char) : List Char :=
  trimEnd (joinNl ((splitOnNl s).map (fun l => trimEnd (stripCR l))))

theorem normalizeL_eq_normalizeAlt (s : List Char) : normalizeL s = normalizeAlt s := by
  obtain h | ⟨M, L, hML⟩ := (splitOnNl s).eq_nil_or_concat
  · exact absurd h (splitOnNl_ne_nil s)
  · rw [List.concat_eq_append] at hML
    unfold normalizeL normalizeAlt rustLines
    rw [hML, List.dropLast_concat, List.getLastD_concat]
    by_cases hL : L = []
    · subst hL
      rw [if_pos rfl]
      simp only [List.append_nil, List.map_map, List.map_append, List.map_cons, List.map_nil]
      rw [show trimEnd (stripCR []) = [] from rfl, trimEnd_joinNl_snoc_nil]
      rfl
    · rw [if_neg hL]
      simp only [List.map_append, List.map_map, List.map_cons, List.map_nil]
      rw [trimEnd_stripCR]
      rfl

theorem normalizeAlt_snoc_nl (a : List Char) :
    normalizeAlt (a ++ ['\n']) = normalizeAlt a := by
  unfold normalizeAlt
  rw [splitOnNl_snoc_nl]
  simp only [List.map_append, List.map_cons, List.map_nil]
  have : trimEnd (stripCR []) = [] := rfl
  rw [this, trimEnd_joinNl_snoc_nil]

theorem normalizeAlt_snoc_ws (a : List Char) (c : Char) (hws : isRustWhitespace c = true)
    (hnl : c ≠ '\n') (hcr : c ≠ '\r') :
    normalizeAlt (a ++ [c]) = normalizeAlt a := by
  obtain ⟨M, L, h1, h2⟩ := splitOnNl_snoc a c hnl
  unfold normalizeAlt
  rw [h1, h2]
  simp only [List.map_append, List.map_cons, List.map_nil]
  have hid : stripCR (L ++ [c]) = L ++ [c] := by
    unfold stripCR
    rw [List.getLast?_concat]
    simp [hcr]
  rw [hid, trimEnd_snoc_ws _ _ hws, trimEnd_stripCR]

theorem normalizeL_snoc_nl (a : List Char) : normalizeL (a ++ ['\n']) = normalizeL a := by
  rw [normalizeL_eq_normalizeAlt, normalizeL_eq_normalizeAlt, normalizeAlt_snoc_nl]

theorem normalizeL_snoc_space (a : List Char) : normalizeL (a ++ [' ']) = normalizeL a := by
  rw [normalizeL_eq_normalizeAlt, normalizeL_eq_normalizeAlt]
  exact normalizeAlt_snoc_ws a ' ' (by decide) (by decide) (by decide)

example : compare_output_standard ("hello \nworld\n\n") ("hello\nworld") = true := by decide

example : compare_output_standard ("a\nb") ("ab") = false := by decide

example : compare_output_strict ("a\n") ("a") = false := by decide

/-- C9: the standard-mode verdict is unchanged when a trailing newline or a
trailing space is appended to either compared output (the comparison trims
trailing whitespace of each line and drops trailing empty lines), whereas
strict mode is exact equality and there is a pair of outputs whose strict
verdict changes when a trailing newline is appended. -/
theorem standard_trailing_insensitive_strict_not :
    (∀ a b : String,
      compare_output_standard ⟨a.data ++ ['\n']⟩ b = compare_output_standard a b ∧
      compare_output_standard ⟨a.data ++ [' ']⟩ b = compare_output_standard a b ∧
      compare_output_standard a ⟨b.data ++ ['\n']⟩ = compare_output_standard a b ∧
      compare_output_standard a ⟨b.data ++ [' ']⟩ = compare_output_standard a b ∧
      (compare_output_strict a b = true ↔ a = b)) ∧
    (∃ x y : String, compare_output_strict x y = true ∧
      compare_output_strict ⟨x.data ++ ['\n']⟩ y = false) := by
  constructor
  · intro a b
    refine ⟨?_, ?_, ?_, ?_, ?_⟩
    · show (normalizeL (a.data ++ ['\n']) == normalizeL b.data) = _
      rw [normalizeL_snoc_nl]
      rfl
    · show (normalizeL (a.data ++ [' ']) == normalizeL b.data) = _
      rw [normalizeL_snoc_space]
      rfl
    · show (normalizeL a.data == normalizeL (b.data ++ ['\n'])) = _
      rw [normalizeL_snoc_nl]
      rfl
    · show (normalizeL a.data == normalizeL (b.data ++ [' '])) = _
      rw [normalizeL_snoc_space]
      rfl
    · simp [compare_output_strict]
  · exact ⟨("a"), ("a"), by decide, by decide⟩

/-! ## Data model

`JobRecord`, `JobSubmission` and `CaseResult` are declared in the jobs
routes module, which is not among the provided sources (only their uses in
`database.rs`, the handlers and the runners are).  Their field lists are
fixed by those uses and by §3 of the spec. -/

/-- Model of `config::JudgeType`. -/
inductive JudgeType where
  | standard
  | strict
  | spj
  | dynamicRanking
deriving DecidableEq

/-- Model of `config::OneCaseConfig`; the `f64` score is an exact rational,
`time_limit` is in microseconds, `memory_limit` in kilobytes. -/
structure OneCaseConfig where
  score : ℚ
  input_file : String
  answer_file : String
  time_limit : Nat
  memory_limit : Nat
deriving DecidableEq

/-- Model of `config::OneProblemConfig`. -/
structure OneProblemConfig where
  id : Nat
  name : String
  judge_type : JudgeType
  cases : List OneCaseConfig
deriving DecidableEq

/-- Modelled from the spec: the `JobSubmission` struct is declared in the
jobs routes module missing from the sources; §3 fixes its fields
(user_id, contest_id, problem_id, source_code, language). -/
structure JobSubmission where
  user_id : Nat
  contest_id : Nat
  problem_id : Nat
  source_code : String
  language : String
deriving DecidableEq

/-- Modelled from the spec: the `CaseResult` struct (one per-case row) is
declared in the jobs routes module missing from the sources; §3 fixes its
fields (index, result, time in µs, memory in KB, info). -/
structure CaseResult where
  id : Nat
  result : String
  time : Nat
  memory : Nat
  info : String
deriving DecidableEq

/-- Modelled from the spec: the `JobRecord` struct is declared in the jobs
routes module missing from the sources; §3 and its uses in `database.rs`
fix its fields.  The `f64` score is an exact rational. -/
structure JobRecord where
  id : Nat
  created_time : String
  updated_time : String
  submission : JobSubmission
  state : String
  result : String
  score : ℚ
  cases : List CaseResult
deriving DecidableEq

/-! ## Sandbox runner: meta-file parsing and the test-case stage

Models of `process_meta_content`, the tail of `run_single_test_case`, and
`run_test_cases` of `src/sandbox/isolate_runner.rs` (the same code appears
verbatim in `src/sandbox/testing.rs`). -/

/-- Result record filled by a single test-case execution
(`sandbox::TestCaseResult`). -/
structure TestCaseResult where
  time : Nat
  memory : Nat
  error : Option String
  info : String
  stdout_content : String
deriving DecidableEq

/-- Model of Rust `str::split_once`: split at the first occurrence of `sep`,
returning the parts before and after it. -/
def splitOnce (sep : Char) : List Char → Option (List Char × List Char)
  | [] => none
  | c :: rest =>
    if c = sep then some ([], rest)
    else (splitOnce sep rest).map (fun p => (c :: p.1, p.2))

/-- Numeric value of a digit string. -/
def digitsVal (l : List Char) : Nat :=
  l.foldl (fun acc c => acc * 10 + (c.toNat - 48)) 0

/-- Model of Rust `str::parse::<u32>`: an optional `+` sign followed by
digits, rejecting values outside the `u32` range. -/
def parseU32 (l : List Char) : Option Nat :=
  let digits := match l with
    | '+' :: rest => rest
    | other => other
  if digits ≠ [] ∧ digits.all (·.isDigit) then
    if digitsVal digits < 2 ^ 32 then some (digitsVal digits) else none
  else none

/-- Model of Rust `str::parse::<f64>` restricted to the plain decimal forms
(`digits`, `digits.digits`, `.digits`, `digits.`) that the isolation tool
writes into its meta files; the value is kept exact as a rational. -/
def parseF64 (l : List Char) : Option ℚ :=
  match splitOnce '.' l with
  | none => if l ≠ [] ∧ l.all (·.isDigit) then some ((digitsVal l : ℚ)) else none
  | some (a, b) =>
    if (a ≠ [] ∨ b ≠ []) ∧ a.all (·.isDigit) ∧ b.all (·.isDigit) then
      some (mkRat (digitsVal a * 10 ^ b.length + digitsVal b) (10 ^ b.length))
    else none

/-- Model of a Rust `f64 as u32` cast: truncate toward zero and saturate at
the `u32` bounds. -/
def f64AsU32 (q : ℚ) : Nat :=
  if q < 0 then 0 else min q.floor.toNat (2 ^ 32 - 1)

/-- Model of `process_meta_content` (identical in `isolate_runner.rs` and
`testing.rs`): fold the `key:value` lines of the meta file over the result
record.  `MicroSecond::from(Second(secs))` is `(secs * 1_000_000.0) as u32`
from `config.rs`. -/
def process_meta_content (meta_content : String) (result : TestCaseResult) : TestCaseResult :=
  (rustLines meta_content.data).foldl (fun result line =>
    match splitOnce ':' line with
    | none => result
    | some (key, value) =>
      if key = ("killed").data then
        { result with error := some ("Time Limit Exceeded") }
      else if key = ("cg-oom-killed").data then
        { result with error := some ("Memory Limit Exceeded") }
      else if key = ("exitcode").data then
        if value ≠ ("0").data ∧ result.error = none then
          { result with error := some ("Runtime Error") }
        else result
      else if key = ("cg-mem").data then
        match parseU32 value with
        | some memory => { result with memory := memory }
        | none => result
      else if key = ("message").data then
        { result with info := ⟨value⟩ }
      else if key = ("time-wall").data then
        match parseF64 value with
        | some secs => { result with time := f64AsU32 (secs * 1000000) }
        | none => result
      else result) result

/-- The meta-file step of `run_single_test_case`
(`isolate_runner.rs:380-385`): parse the meta file into a fresh result
record, or record a System Error when it cannot be read. -/
def meta_stage (meta_content : Option String) : TestCaseResult :=
  match meta_content with
  | some m =>
    process_meta_content m { time := 0, memory := 0, error := none, info := "", stdout_content := "" }
  | none =>
    { time := 0, memory := 0, error := some ("System Error"),
      info := "Failed to read meta file", stdout_content := "" }

/-- The external wall-timer step of `run_single_test_case`
(`isolate_runner.rs:387-391`, `testing.rs:86-90`): when the measured
elapsed time (as a `u32` of microseconds, hence the `% 2^32`) exceeds the
case time limit, overwrite the time and the error with Time Limit
Exceeded. -/
def wall_timer_override (time_limit elapsed_micros : Nat) (r : TestCaseResult) : TestCaseResult :=
  if elapsed_micros % 2 ^ 32 > time_limit then
    { r with time := elapsed_micros % 2 ^ 32, error := some ("Time Limit Exceeded") }
  else r

/-- The output-reading step of `run_single_test_case`
(`isolate_runner.rs:393-403`): only when no error was recorded, read the
program output; a failed read records a System Error and leaves the
output empty. -/
def read_stdout_stage (stdout_content : Option String) (r : TestCaseResult) : TestCaseResult :=
  if r.error = none then
    match stdout_content with
    | some s => { r with stdout_content := s }
    | none =>
      { r with
        error := some ("System Error")
        info := "Failed to read output file"
        stdout_content := "" }
  else r

/-- The result-producing tail of `run_single_test_case`: meta parsing, then
the wall-timer override, then the output read.  The meta-file content, the
measured elapsed microseconds and the output-file content stand in for the
ambient I/O. -/
def run_single_test_case_post (meta_content : Option String) (elapsed_micros : Nat)
    (case_time_limit : Nat) (stdout_content : Option String) : TestCaseResult :=
  read_stdout_stage stdout_content
    (wall_timer_override case_time_limit elapsed_micros (meta_stage meta_content))

example :
    (meta_stage (some ("cg-mem:2048\nexitcode:1"))) =
      { time := 0, memory := 2048, error := some ("Runtime Error"),
        info := "", stdout_content := "" } := by decide

example : (meta_stage (some ("killed:1\nexitcode:1"))).error
    = some ("Time Limit Exceeded") := by decide

/-- C3 counterexample: with a meta file recording a Memory Limit Exceeded
kill and a measured elapsed time of 1000001 µs against a 1000000 µs limit,
the wall-timer override still marks the case Time Limit Exceeded even
though another error was already recorded, contradicting the claim that it
fires only when no other error was recorded. -/
theorem wall_timer_override_ignores_prior_error :
    (meta_stage (some ("cg-oom-killed:1"))).error = some ("Memory Limit Exceeded") ∧
    (run_single_test_case_post (some ("cg-oom-killed:1")) 1000001 1000000
        (some (""))).error = some ("Time Limit Exceeded") := by
  exact ⟨by decide, by decide⟩

/-- C3 amended: in the isolated back-end's test-case stage, the external
wall-timer override marks a case Time Limit Exceeded exactly when the
measured elapsed time (as a `u32`) exceeds `case.time_limit`, regardless of
any error already recorded from the meta file (which it overwrites); when
the elapsed time is within the limit, the case is Time Limit Exceeded only
if the meta file already recorded one. -/
theorem wall_timer_override_fires_iff (meta_content : Option String)
    (elapsed_micros case_time_limit : Nat) (stdout_content : Option String) :
    (run_single_test_case_post meta_content elapsed_micros case_time_limit
        stdout_content).error = some ("Time Limit Exceeded") ↔
      (elapsed_micros % 2 ^ 32 > case_time_limit ∨
        (meta_stage meta_content).error = some ("Time Limit Exceeded")) := by
  have hpow : (2 : ℕ) ^ 32 = 4294967296 := by norm_num
  unfold run_single_test_case_post wall_timer_override read_stdout_stage
  rw [hpow]
  by_cases h : elapsed_micros % 4294967296 > case_time_limit
  · rw [if_pos h]
    simp [h]
  · rw [if_neg h]
    cases he : (meta_stage meta_content).error with
    | none =>
      cases stdout_content with
      | some s => simp [he, h, Nat.not_lt.mp h]
      | none => simp [he, h, Nat.not_lt.mp h]
    | some e => simp [he, h, Nat.not_lt.mp h]

/-! ## Sandbox runner: the whole-job test-case stage (`run_test_cases`)

`run_test_cases` appears three times with the same logic
(`isolate_runner.rs:133-178`, `simple_runner.rs:156-204`,
`testing.rs:5-50`); the embedding below is shared.  The per-case sandbox
execution (`run_single_test_case`) is ambient I/O and enters as the given
list of `TestCaseResult`s; the answer-file reads of
`check_output_correctness` enter as the `fsRead` map. -/

/-- Model of `check_output_correctness`: read the answer file and compare
according to the judge type; `spj` and `dynamic_ranking` fall through to
`false`.  A failed read is an `Err` (`None`). -/
def check_output_correctness (fsRead : String → Option String) (judge_type : JudgeType)
    (program_output : String) (case_config : OneCaseConfig) : Option Bool :=
  match fsRead case_config.answer_file with
  | none => none
  | some expected_output =>
    some (match judge_type with
      | .standard => compare_output_standard program_output expected_output
      | .strict => compare_output_strict program_output expected_output
      | _ => false)

/-- In-place update of the element at index `i` (Rust `job.cases[i] = …`). -/
def listModify {α : Type} (l : List α) (i : Nat) (f : α → α) : List α :=
  match l, i with
  | [], _ => []
  | x :: xs, 0 => f x :: xs
  | x :: xs, n + 1 => x :: listModify xs n f

/-- Model of `Option::or`, as in `first_error.or(Some(error))`. -/
def orFirst (a b : Option String) : Option String :=
  match a with
  | some x => some x
  | none => b

/-- The `for (idx, case_config) in problem.cases.iter().enumerate()` loop of
`run_test_cases`, mutating the case rows and accumulating `total_score` and
`first_error`.  `None` models an early `?` return from a failed answer-file
read. -/
def run_test_cases_loop (fsRead : String → Option String) (judge_type : JudgeType) :
    List (OneCaseConfig × TestCaseResult) → Nat → List CaseResult → ℚ → Option String →
      Option (List CaseResult × ℚ × Option String)
  | [], _, rows, total_score, first_error => some (rows, total_score, first_error)
  | (case_config, test_result) :: rest, case_idx, rows, total_score, first_error =>
    let rows1 := listModify rows case_idx (fun c => { c with result := "Running" })
    let rows2 := listModify rows1 case_idx
      (fun c => { c with time := test_result.time, memory := test_result.memory })
    match test_result.error with
    | some error =>
      run_test_cases_loop fsRead judge_type rest (case_idx + 1)
        (listModify rows2 case_idx (fun c => { c with result := error, info := test_result.info }))
        total_score (orFirst first_error (some error))
    | none =>
      match check_output_correctness fsRead judge_type test_result.stdout_content case_config with
      | none => none
      | some true =>
        run_test_cases_loop fsRead judge_type rest (case_idx + 1)
          (listModify rows2 case_idx (fun c => { c with result := "Accepted" }))
          (total_score + case_config.score) first_error
      | some false =>
        run_test_cases_loop fsRead judge_type rest (case_idx + 1)
          (listModify rows2 case_idx (fun c => { c with result := "Wrong Answer" }))
          total_score (orFirst first_error (some ("Wrong Answer")))

/-- Model of `run_test_cases`: loop over the configured cases (case row
`i + 1` belongs to configured case `i`; row 0 is the compile case), then
set `job.score`, `job.result` (first recorded error, or Accepted) and
`job.state = Finished`. -/
def run_test_cases (fsRead : String → Option String) (job : JobRecord)
    (problem : OneProblemConfig) (results : List TestCaseResult) : Option JobRecord :=
  match run_test_cases_loop fsRead problem.judge_type (problem.cases.zip results)
      1 job.cases 0 none with
  | none => none
  | some (rows, total_score, first_error) =>
    some { job with
      cases := rows
      score := total_score
      result := (match first_error with
        | some e => e
        | none => "Accepted")
      state := "Finished" }

/-- Sum of the configured scores of the rows judged Accepted. -/
def sumAcceptedScores (cfgs : List OneCaseConfig) (rows : List CaseResult) : ℚ :=
  (((cfgs.zip rows).filter (fun p => p.2.result = "Accepted")).map (fun p => p.1.score)).sum

/-- First non-Accepted result among a list of case rows. -/
def firstErr (rows : List CaseResult) : Option String :=
  ((rows.map CaseResult.result).filter (fun r => r ≠ "Accepted")).head?

theorem length_listModify {α : Type} (l : List α) (i : Nat) (f : α → α) :
    (listModify l i f).length = l.length := by
  induction l generalizing i with
  | nil => rfl
  | cons x xs ih =>
    cases i with
    | zero => rfl
    | succ n => simp [listModify, ih]

theorem getD_listModify_self {α : Type} (l : List α) (i : Nat) (f : α → α) (d : α)
    (h : i < l.length) : (listModify l i f).getD i d = f (l.getD i d) := by
  induction l generalizing i with
  | nil => simp at h
  | cons x xs ih =>
    cases i with
    | zero => rfl
    | succ n =>
      simp only [listModify, List.getD_cons_succ]
      exact ih n (by simpa using h)

theorem getD_listModify_ne {α : Type} (l : List α) (i j : Nat) (f : α → α) (d : α)
    (h : j ≠ i) : (listModify l i f).getD j d = l.getD j d := by
  induction l generalizing i j with
  | nil => rfl
  | cons x xs ih =>
    cases i with
    | zero =>
      cases j with
      | zero => exact absurd rfl h
      | succ m => rfl
    | succ n =>
      cases j with
      | zero => rfl
      | succ m =>
        simp only [listModify, List.getD_cons_succ]
        exact ih n m (fun he => h (by rw [he]))

theorem firstErr_cons (r : CaseResult) (rs : List CaseResult) :
    firstErr (r :: rs) =
      if r.result = "Accepted" then firstErr rs else some r.result := by
  unfold firstErr
  by_cases h : r.result = "Accepted" <;> simp [h]

theorem sumAcceptedScores_cons (c : OneCaseConfig) (cs : List OneCaseConfig)
    (r : CaseResult) (rs : List CaseResult) :
    sumAcceptedScores (c :: cs) (r :: rs) =
      if r.result = "Accepted" then c.score + sumAcceptedScores cs rs
      else sumAcceptedScores cs rs := by
  unfold sumAcceptedScores
  by_cases h : r.result = "Accepted" <;> simp [h]

theorem orFirst_assoc (a b c : Option String) :
    orFirst (orFirst a b) c = orFirst a (orFirst b c) := by
  cases a <;> cases b <;> rfl

theorem orFirst_some (a : Option String) (e : String) (c : Option String) :
    orFirst (orFirst a (some e)) c = orFirst a (some e) := by
  cases a <;> rfl

theorem drop_eq_getD_cons {α : Type} (l : List α) (i : Nat) (d : α) (h : i < l.length) :
    l.drop i = l.getD i d :: l.drop (i + 1) := by
  rw [List.getD_eq_getElem l d h]
  exact List.drop_eq_getElem_cons h

/-- Loop invariant of `run_test_cases_loop`: on success it preserves the
rows outside the processed window, and the final accumulators are
determined by the final contents of the processed window. -/
theorem run_test_cases_loop_spec (fsRead : String → Option String) (jt : JudgeType)
    (d : CaseResult) :
    ∀ (pairs : List (OneCaseConfig × TestCaseResult)) (idx : Nat) (rows : List CaseResult)
      (total : ℚ) (fe : Option String) (out : List CaseResult × ℚ × Option String),
      run_test_cases_loop fsRead jt pairs idx rows total fe = some out →
      idx + pairs.length ≤ rows.length →
      (∀ p ∈ pairs, p.2.error ≠ some ("Accepted")) →
      out.1.length = rows.length ∧
      (∀ j, j < idx → out.1.getD j d = rows.getD j d) ∧
      (∀ j, idx + pairs.length ≤ j → out.1.getD j d = rows.getD j d) ∧
      out.2.1 = total + sumAcceptedScores (pairs.map Prod.fst)
        ((out.1.drop idx).take pairs.length) ∧
      out.2.2 = orFirst fe (firstErr ((out.1.drop idx).take pairs.length))
  | [], idx, rows, total, fe, out => by
    intro h hlen herr
    simp only [run_test_cases_loop, Option.some_inj] at h
    subst h
    refine ⟨rfl, fun j _ => rfl, fun j _ => rfl, ?_, ?_⟩
    · simp [sumAcceptedScores]
    · cases fe <;> simp [orFirst, firstErr]
  | (cfg, tr) :: rest, idx, rows, total, fe, out => by
    intro h hlen herr
    simp only [List.length_cons] at hlen
    have hidx : idx < rows.length := by omega
    have herr_rest : ∀ p ∈ rest, p.2.error ≠ some ("Accepted") := by
      intro p hp
      exact herr p (List.mem_cons_of_mem _ hp)
    cases htr : tr.error with
    | some error =>
      simp only [run_test_cases_loop, htr] at h
      have herr_hd : error ≠ "Accepted" := by
        intro hcontra
        exact herr (cfg, tr) (List.mem_cons_self _ _) (by rw [htr, hcontra])
      have hspec := run_test_cases_loop_spec fsRead jt d rest (idx + 1) _ total
        (orFirst fe (some error)) out h
        (by simp only [length_listModify]; omega) herr_rest
      obtain ⟨ih_len, ih_left, ih_right, ih_score, ih_fe⟩ := hspec
      have hR3len : out.1.length = rows.length := by
        rw [ih_len]; simp only [length_listModify]
      have hpres : ∀ j, j ≠ idx → j < idx + 1 ∨ idx + 1 + rest.length ≤ j →
          out.1.getD j d = rows.getD j d := by
        intro j hne hj
        have h1 : out.1.getD j d = _ := hj.elim (ih_left j) (ih_right j)
        rw [h1, getD_listModify_ne _ _ _ _ _ hne, getD_listModify_ne _ _ _ _ _ hne,
          getD_listModify_ne _ _ _ _ _ hne]
      have hri : out.1.getD idx d =
          { (rows.getD idx d) with
            result := error, info := tr.info, time := tr.time, memory := tr.memory } := by
        rw [ih_left idx (Nat.lt_succ_self idx),
          getD_listModify_self _ _ _ _ (by simp only [length_listModify]; omega),
          getD_listModify_self _ _ _ _ (by simp only [length_listModify]; omega),
          getD_listModify_self _ _ _ _ (by omega)]
      have hseg : (out.1.drop idx).take (rest.length + 1) =
          out.1.getD idx d :: ((out.1.drop (idx + 1)).take rest.length) := by
        rw [drop_eq_getD_cons out.1 idx d (by omega), List.take_succ_cons]
      refine ⟨hR3len, ?_, ?_, ?_, ?_⟩
      · intro j hj
        exact hpres j (by omega) (Or.inl (by omega))
      · intro j hj
        simp only [List.length_cons] at hj
        exact hpres j (by omega) (Or.inr (by omega))
      · simp only [List.length_cons, List.map_cons, hseg, sumAcceptedScores_cons, hri,
          if_neg herr_hd]
        exact ih_score
      · simp only [List.length_cons, hseg, firstErr_cons, hri, if_neg herr_hd]
        rw [ih_fe, orFirst_some]
    | none =>
      cases hchk : check_output_correctness fsRead jt tr.stdout_content cfg with
      | none =>
        simp only [run_test_cases_loop, htr, hchk] at h
        exact Option.noConfusion h
      | some b =>
        cases b with
        | true =>
          simp only [run_test_cases_loop, htr, hchk] at h
          have hspec := run_test_cases_loop_spec fsRead jt d rest (idx + 1) _
            (total + cfg.score) fe out h
            (by simp only [length_listModify]; omega) herr_rest
          obtain ⟨ih_len, ih_left, ih_right, ih_score, ih_fe⟩ := hspec
          have hR3len : out.1.length = rows.length := by
            rw [ih_len]; simp only [length_listModify]
          have hpres : ∀ j, j ≠ idx → j < idx + 1 ∨ idx + 1 + rest.length ≤ j →
              out.1.getD j d = rows.getD j d := by
            intro j hne hj
            have h1 : out.1.getD j d = _ := hj.elim (ih_left j) (ih_right j)
            rw [h1, getD_listModify_ne _ _ _ _ _ hne, getD_listModify_ne _ _ _ _ _ hne,
              getD_listModify_ne _ _ _ _ _ hne]
          have hri : out.1.getD idx d =
              { (rows.getD idx d) with
                result := "Accepted", time := tr.time, memory := tr.memory } := by
            rw [ih_left idx (Nat.lt_succ_self idx),
              getD_listModify_self _ _ _ _ (by simp only [length_listModify]; omega),
              getD_listModify_self _ _ _ _ (by simp only [length_listModify]; omega),
              getD_listModify_self _ _ _ _ (by omega)]
          have hseg : (out.1.drop idx).take (rest.length + 1) =
              out.1.getD idx d :: ((out.1.drop (idx + 1)).take rest.length) := by
            rw [drop_eq_getD_cons out.1 idx d (by omega), List.take_succ_cons]
          refine ⟨hR3len, ?_, ?_, ?_, ?_⟩
          · intro j hj
            exact hpres j (by omega) (Or.inl (by omega))
          · intro j hj
            simp only [List.length_cons] at hj
            exact hpres j (by omega) (Or.inr (by omega))
          · simp only [List.length_cons, List.map_cons, hseg, sumAcceptedScores_cons, hri,
              eq_self_iff_true, if_true]
            rw [ih_score, add_assoc]
          · simp only [List.length_cons, hseg, firstErr_cons, hri, eq_self_iff_true, if_true]
            exact ih_fe
        | false =>
          simp only [run_test_cases_loop, htr, hchk] at h
          have hwa : ("Wrong Answer" : String) ≠ "Accepted" := by decide
          have hspec := run_test_cases_loop_spec fsRead jt d rest (idx + 1) _ total
            (orFirst fe (some ("Wrong Answer"))) out h
            (by simp only [length_listModify]; omega) herr_rest
          obtain ⟨ih_len, ih_left, ih_right, ih_score, ih_fe⟩ := hspec
          have hR3len : out.1.length = rows.length := by
            rw [ih_len]; simp only [length_listModify]
          have hpres : ∀ j, j ≠ idx → j < idx + 1 ∨ idx + 1 + rest.length ≤ j →
              out.1.getD j d = rows.getD j d := by
            intro j hne hj
            have h1 : out.1.getD j d = _ := hj.elim (ih_left j) (ih_right j)
            rw [h1, getD_listModify_ne _ _ _ _ _ hne, getD_listModify_ne _ _ _ _ _ hne,
              getD_listModify_ne _ _ _ _ _ hne]
          have hri : out.1.getD idx d =
              { (rows.getD idx d) with
                result := "Wrong Answer", time := tr.time, memory := tr.memory } := by
            rw [ih_left idx (Nat.lt_succ_self idx),
              getD_listModify_self _ _ _ _ (by simp only [length_listModify]; omega),
              getD_listModify_self _ _ _ _ (by simp only [length_listModify]; omega),
              getD_listModify_self _ _ _ _ (by omega)]
          have hseg : (out.1.drop idx).take (rest.length + 1) =
              out.1.getD idx d :: ((out.1.drop (idx + 1)).take rest.length) := by
            rw [drop_eq_getD_cons out.1 idx d (by omega), List.take_succ_cons]
          refine ⟨hR3len, ?_, ?_, ?_, ?_⟩
          · intro j hj
            exact hpres j (by omega) (Or.inl (by omega))
          · intro j hj
            simp only [List.length_cons] at hj
            exact hpres j (by omega) (Or.inr (by omega))
          · simp only [List.length_cons, List.map_cons, hseg, sumAcceptedScores_cons, hri,
              if_neg hwa]
            exact ih_score
          · simp only [List.length_cons, hseg, firstErr_cons, hri, if_neg hwa]
            rw [ih_fe, orFirst_some]

theorem firstErr_none_iff (rows : List CaseResult) :
    firstErr rows = none ↔ ∀ c ∈ rows, c.result = "Accepted" := by
  unfold firstErr
  rw [List.head?_eq_none_iff, List.filter_eq_nil_iff]
  constructor
  · intro h c hc
    have := h c.result (List.mem_map_of_mem _ hc)
    simpa using this
  · intro h r hr
    obtain ⟨c, hc, rfl⟩ := List.mem_map.mp hr
    simpa using h c hc

theorem firstErr_some_ne (rows : List CaseResult) (e : String)
    (h : firstErr rows = some e) : e ≠ "Accepted" := by
  unfold firstErr at h
  cases hf : (rows.map CaseResult.result).filter (fun r => r ≠ "Accepted") with
  | nil => rw [hf] at h; exact Option.noConfusion h
  | cons x xs =>
    rw [hf] at h
    have hx : x = e := by simpa using h
    have hmem : x ∈ (rows.map CaseResult.result).filter (fun r => r ≠ "Accepted") := by
      rw [hf]; exact List.mem_cons_self _ _
    have := List.of_mem_filter hmem
    rw [hx] at this
    simpa using this

/-- C1: when the runner finishes judging a job that compiled successfully
(`run_test_cases` succeeds), the job's state is Finished, its result is the
first per-case error recorded in case order (or Accepted if none), its
score is the sum of `case.score` over exactly the accepted cases, and the
result is Accepted iff every non-compile case row is Accepted. -/
theorem run_test_cases_finished_result_score (fsRead : String → Option String)
    (job : JobRecord) (problem : OneProblemConfig) (results : List TestCaseResult)
    (job2 : JobRecord)
    (hrun : run_test_cases fsRead job problem results = some job2)
    (hlen : job.cases.length = problem.cases.length + 1)
    (hres : results.length = problem.cases.length)
    (herr : ∀ tr ∈ results, tr.error ≠ some ("Accepted")) :
    job2.state = "Finished" ∧
    job2.result = (firstErr (job2.cases.drop 1)).getD ("Accepted") ∧
    job2.score = sumAcceptedScores problem.cases (job2.cases.drop 1) ∧
    (job2.result = "Accepted" ↔ ∀ c ∈ job2.cases.drop 1, c.result = "Accepted") := by
  unfold run_test_cases at hrun
  cases hloop : run_test_cases_loop fsRead problem.judge_type (problem.cases.zip results)
      1 job.cases 0 none with
  | none => rw [hloop] at hrun; exact Option.noConfusion hrun
  | some out =>
    rw [hloop] at hrun
    simp only [Option.some_inj] at hrun
    have hzlen : (problem.cases.zip results).length = problem.cases.length := by
      rw [List.length_zip, hres, Nat.min_self]
    obtain ⟨hl, hleft, hright, hscore, hfe⟩ :=
      run_test_cases_loop_spec fsRead problem.judge_type
        ⟨0, "", 0, 0, ""⟩ (problem.cases.zip results) 1 job.cases 0 none out hloop
        (by rw [hzlen, hlen]; omega)
        (fun p hp => herr p.2 (List.of_mem_zip hp).2)
    have houtlen : out.1.length = job.cases.length := hl
    have hseg : (out.1.drop 1).take ((problem.cases.zip results).length) = out.1.drop 1 := by
      have hdlen : (out.1.drop 1).length = problem.cases.length := by
        rw [List.length_drop, houtlen, hlen]
        omega
      rw [hzlen, ← hdlen]
      exact List.take_length _
    have hmapfst : (problem.cases.zip results).map Prod.fst = problem.cases :=
      List.map_fst_zip _ _ (by omega)
    rw [hseg] at hscore hfe
    rw [hmapfst] at hscore
    subst hrun
    have hcases : ({ job with
        cases := out.1
        score := out.2.1
        result := (match out.2.2 with
          | some e => e
          | none => "Accepted")
        state := "Finished" } : JobRecord).cases = out.1 := rfl
    have hresult2 : ({ job with
        cases := out.1
        score := out.2.1
        result := (match out.2.2 with
          | some e => e
          | none => "Accepted")
        state := "Finished" } : JobRecord).result = (firstErr (out.1.drop 1)).getD ("Accepted") := by
      show (match out.2.2 with
        | some e => e
        | none => "Accepted") = _
      rw [hfe]
      cases hfx : firstErr (out.1.drop 1) <;> rfl
    refine ⟨rfl, ?_, ?_, ?_⟩
    · rw [hresult2, hcases]
    · show out.2.1 = _
      rw [hscore, hcases, zero_add]
    · rw [hresult2, hcases]
      cases hfx : firstErr (out.1.drop 1) with
      | none =>
        simp only [Option.getD_none]
        constructor
        · intro _
          exact (firstErr_none_iff _).mp hfx
        · intro _
          trivial
      | some e =>
        simp only [Option.getD_some]
        have hne := firstErr_some_ne _ _ hfx
        constructor
        · intro hcontra
          exact absurd hcontra hne
        · intro hall
          exact absurd hfx (by rw [(firstErr_none_iff _).mpr hall]; simp)

/-- Concrete inputs for the C1 witness: a single standard-judged case whose
output does not match the answer. -/
def c1fsRead : String → Option String := fun _ => some ("hello")

def c1problem : OneProblemConfig :=
  { id := 0, name := "p", judge_type := .standard
    cases := [{ score := 50, input_file := "1.in", answer_file := "1.ans",
                time_limit := 1000000, memory_limit := 1024 }] }

def c1job : JobRecord :=
  { id := 0, created_time := "t0", updated_time := "t0"
    submission := { user_id := 0, contest_id := 0, problem_id := 0,
                    source_code := "s", language := "py" }
    state := "Running", result := "Running", score := 0
    cases := [⟨0, "Compilation Success", 0, 0, ""⟩, ⟨1, "Running", 0, 0, ""⟩] }

def c1results : List TestCaseResult :=
  [{ time := 5, memory := 10, error := none, info := "", stdout_content := "nope" }]

def c1job2 : JobRecord :=
  { id := 0, created_time := "t0", updated_time := "t0"
    submission := { user_id := 0, contest_id := 0, problem_id := 0,
                    source_code := "s", language := "py" }
    state := "Finished", result := "Wrong Answer", score := 0
    cases := [⟨0, "Compilation Success", 0, 0, ""⟩, ⟨1, "Wrong Answer", 5, 10, ""⟩] }

/-- C1 witness: the theorem applied to a concrete judged job. -/
theorem run_test_cases_finished_result_score_witness :
    c1job2.state = "Finished" ∧
    c1job2.result = (firstErr (c1job2.cases.drop 1)).getD ("Accepted") ∧
    c1job2.score = sumAcceptedScores c1problem.cases (c1job2.cases.drop 1) ∧
    (c1job2.result = "Accepted" ↔ ∀ c ∈ c1job2.cases.drop 1, c.result = "Accepted") :=
  run_test_cases_finished_result_score c1fsRead c1job c1problem c1results c1job2
    (by decide) (by decide) (by decide) (by decide)

/-! ## The in-memory job queue (`src/queue.rs`)

The queue state is the `VecDeque<JobMessage>` behind the mutex; `push`
appends at the back, `pop` takes the front when available, `cancel_job`
retains the messages with a different id. -/

/-- Model of `routes::JobMessage`.  The declaration lives in the jobs
routes module missing from the sources; per §4.2 of the spec it is
`FireAndForget{job_id}` or `Blocking{job_id, responder}`, and `id()`
returns the `job_id` of either variant (the responder one-shot channel is
an opaque token here). -/
inductive JobMessage where
  | fireAndForget (job_id : Nat)
  | blocking (job_id : Nat) (responder : Nat)
deriving DecidableEq

/-- Modelled from the spec: `JobMessage::id()` returns the message's
`job_id` (the queue "holds only ids", §4.2; `cancel_job` compares
`j.id()` with the requested id). -/
def JobMessage.id : JobMessage → Nat
  | .fireAndForget job_id => job_id
  | .blocking job_id _ => job_id

/-- Model of `queue::JobQueue`: the deque contents in front-to-back
order. -/
structure JobQueue where
  queue : List JobMessage
deriving DecidableEq

/-- Model of `JobQueue::push`: `push_back`. -/
def JobQueue.push (q : JobQueue) (job : JobMessage) : JobQueue :=
  ⟨q.queue ++ [job]⟩

/-- Model of `JobQueue::pop`: return the front message once one is
available (the async retry loop only suspends; it always takes
`pop_front`). -/
def JobQueue.pop (q : JobQueue) : Option (JobMessage × JobQueue) :=
  match q.queue with
  | [] => none
  | job :: rest => some (job, ⟨rest⟩)

/-- Model of `JobQueue::cancel_job`: retain the messages whose id differs,
and report whether the length changed. -/
def JobQueue.cancel_job (q : JobQueue) (job_id : Nat) : JobQueue × Bool :=
  (⟨q.queue.filter (fun j => j.id ≠ job_id)⟩,
    q.queue.length ≠ (q.queue.filter (fun j => j.id ≠ job_id)).length)

/-- All messages delivered by repeated `pop` calls, in delivery order. -/
def JobQueue.popAll (q : JobQueue) : List JobMessage :=
  match h : q.pop with
  | none => []
  | some (job, q2) => job :: q2.popAll
termination_by q.queue.length
decreasing_by
  simp only [JobQueue.pop] at h
  cases hq : q.queue with
  | nil => rw [hq] at h; exact Option.noConfusion h
  | cons x xs =>
    rw [hq] at h
    simp only [Option.some_inj, Prod.mk.injEq] at h
    rw [← h.2]
    simp [hq]

theorem popAll_eq_queue (q : JobQueue) : q.popAll = q.queue := by
  rw [JobQueue.popAll]
  split
  · next heq =>
    simp only [JobQueue.pop] at heq
    cases hq : q.queue with
    | nil => rfl
    | cons x xs => rw [hq] at heq; exact Option.noConfusion heq
  · next job q2 heq =>
    simp only [JobQueue.pop] at heq
    cases hq : q.queue with
    | nil => rw [hq] at heq; exact Option.noConfusion heq
    | cons x xs =>
      rw [hq] at heq
      simp only [Option.some_inj, Prod.mk.injEq] at heq
      rw [← heq.1, ← heq.2, popAll_eq_queue ⟨xs⟩]
termination_by q.queue.length
decreasing_by simp [hq]

theorem cancel_job_snd_iff (q : JobQueue) (job_id : Nat) :
    (q.cancel_job job_id).2 = true ↔ ∃ m ∈ q.queue, m.id = job_id := by
  show decide (q.queue.length ≠ (q.queue.filter (fun j => j.id ≠ job_id)).length) = true ↔ _
  rw [decide_eq_true_eq]
  constructor
  · intro hne
    by_contra hno
    push_neg at hno
    have hall : q.queue.filter (fun j => j.id ≠ job_id) = q.queue := by
      apply List.filter_eq_self.mpr
      intro a ha
      simpa using hno a ha
    rw [hall] at hne
    exact hne rfl
  · rintro ⟨m, hm, hid⟩
    have hlt : (q.queue.filter (fun j => j.id ≠ job_id)).length < q.queue.length := by
      apply List.length_filter_lt_length_iff_exists.mpr
      exact ⟨m, hm, by simp [hid]⟩
    exact (Nat.ne_of_gt hlt)

theorem cancel_job_snd_false_iff (q : JobQueue) (job_id : Nat) :
    (q.cancel_job job_id).2 = false ↔ ∀ m ∈ q.queue, m.id ≠ job_id := by
  constructor
  · intro h m hm hid
    have := (cancel_job_snd_iff q job_id).mpr ⟨m, hm, hid⟩
    rw [h] at this
    exact Bool.noConfusion this
  · intro h
    cases hb : (q.cancel_job job_id).2 with
    | false => rfl
    | true =>
      obtain ⟨m, hm, hid⟩ := (cancel_job_snd_iff q job_id).mp hb
      exact absurd hid (h m hm)

/-- C10: `cancel_job` removes exactly the queued messages whose job id
equals the requested id (counts of all other messages are preserved and
every survivor has a different id), keeps the survivors in their original
relative order (a sublist), reports whether anything was removed, and
subsequent pops deliver exactly the survivors in the original FIFO
order. -/
theorem cancel_job_removes_exactly_and_keeps_fifo (q : JobQueue) (job_id : Nat) :
    ((q.cancel_job job_id).1.queue.Sublist q.queue) ∧
    (∀ m ∈ (q.cancel_job job_id).1.queue, m.id ≠ job_id) ∧
    (∀ m : JobMessage, m.id ≠ job_id →
      (q.cancel_job job_id).1.queue.count m = q.queue.count m) ∧
    ((q.cancel_job job_id).2 = true ↔ ∃ m ∈ q.queue, m.id = job_id) ∧
    ((q.cancel_job job_id).1.popAll = q.popAll.filter (fun m => m.id ≠ job_id)) := by
  refine ⟨List.filter_sublist _, ?_, ?_, cancel_job_snd_iff q job_id, ?_⟩
  · intro m hm
    have := List.of_mem_filter hm
    simpa using this
  · intro m hm
    show (q.queue.filter (fun j => j.id ≠ job_id)).count m = q.queue.count m
    exact List.count_filter (by simpa using hm)
  · rw [popAll_eq_queue, popAll_eq_queue]
    rfl

/-- Three-way comparison from a linear order; for non-NaN `f64` this is
exactly `partial_cmp(..).unwrap_or(Equal)`, for `u32` it is `Ord::cmp`. -/
def cmpv {α : Type} [LinearOrder α] (a b : α) : Ordering :=
  if a < b then .lt else if a = b then .eq else .gt

/-- Byte-lexicographic comparison of strings, as Rust `str::cmp` (UTF-8
byte order coincides with code-point order). -/
def cmpCharList : List Char → List Char → Ordering
  | [], [] => .eq
  | [], _ :: _ => .lt
  | _ :: _, [] => .gt
  | a :: as, b :: bs => (cmpv a.toNat b.toNat).then (cmpCharList as bs)

/-- Model of `String::cmp`. -/
def cmpStr (a b : String) : Ordering := cmpCharList a.data b.data

/-! ## Persistence operations and HTTP handlers

The database is modelled as the list of job records (`database.rs` keeps
one row per job plus its case rows; `fetch_job` returns the cases ordered
by index, which the model assumes of the stored record).  Timestamps
(`create_timestamp()`) enter as the `now` argument. -/

/-- Model of `routes::users::User`. -/
structure User where
  id : Nat
  name : String
deriving DecidableEq

/-- The HTTP responses the modelled handlers produce.  A blocking
submission suspends on the responder channel and forwards the worker's
record; that reply is `blockingReply` here (the dropped-channel
`ERR_INTERNAL` path is outside this model). -/
inductive HttpResponseM where
  | okRecord (record : JobRecord)
  | okList (records : List JobRecord)
  | okEmpty
  | blockingReply (job_id : Nat)
  | err (reason : String) (code : Nat)
deriving DecidableEq

/-- `true` exactly on the error responses. -/
def HttpResponseM.isErr : HttpResponseM → Bool
  | .err _ _ => true
  | _ => false

/-- Model of `db::find_job`: does a row with this exposed id exist. -/
def find_job (id : Nat) (db : List JobRecord) : Bool :=
  (db.find? (fun j => j.id = id)).isSome

/-- Model of `db::fetch_job`; `none` is `RowNotFound`. -/
def fetch_job (id : Nat) (db : List JobRecord) : Option JobRecord :=
  db.find? (fun j => j.id = id)

/-- Model of `db::update_job_to_canceled` (`database.rs:290-321`): set the
job to Canceled/Skipped, refresh `updated_time`, and set every one of its
case rows' result to Skipped. -/
def update_job_to_canceled (id : Nat) (now : String) (db : List JobRecord) : List JobRecord :=
  db.map (fun j =>
    if j.id = id then
      { j with
        state := "Canceled"
        result := "Skipped"
        updated_time := now
        cases := j.cases.map (fun c => { c with result := "Skipped" }) }
    else j)

/-- Model of `db::revert_job_to_queueing` (`database.rs:324-356`): reset the
job to Queueing/Waiting/score 0 and every case row to Waiting/0/0/"";
returns the number of case rows affected. -/
def revert_job_to_queueing (id : Nat) (now : String) (db : List JobRecord) :
    List JobRecord × Nat :=
  (db.map (fun j =>
      if j.id = id then
        { j with
          state := "Queueing"
          result := "Waiting"
          score := 0
          updated_time := now
          cases := j.cases.map
            (fun c => { c with result := "Waiting", time := 0, memory := 0, info := "" }) }
      else j),
    match db.find? (fun j => j.id = id) with
    | some j => j.cases.length
    | none => 0)

/-- Model of `handle_job_submission` (`routes/jobs/post.rs:71-133`): in
blocking mode push `Blocking{job_id, responder}` and await the reply; in
non-blocking mode push `FireAndForget{job_id}` and synthesize a fresh
record with case rows `0..=cases_count`, each Waiting/0/0/"". -/
def handle_job_submission (job_id : Nat) (q : JobQueue) (blocking : Bool)
    (submission : JobSubmission) (cases_count : Nat) (now : String) :
    JobQueue × HttpResponseM :=
  if blocking then
    (q.push (.blocking job_id 0), .blockingReply job_id)
  else
    (q.push (.fireAndForget job_id),
      .okRecord
        { id := job_id
          created_time := now
          updated_time := now
          submission := submission
          state := "Queueing"
          result := "Waiting"
          score := 0
          cases := (List.range (cases_count + 1)).map
            (fun i => { id := i, result := "Waiting", time := 0, memory := 0, info := "" }) })

/-- Model of `put_job_handler` (`routes/jobs/put.rs`): fetch the job; when
its state is Finished or Canceled, revert it to queueing and re-submit with
the same blocking logic as POST (passing the number of reverted case rows
as `cases_count`); otherwise `ERR_INVALID_STATE`, and `ERR_NOT_FOUND` when
the row does not exist. -/
def put_job_handler (q : JobQueue) (db : List JobRecord) (job_id : Nat) (blocking : Bool)
    (now : String) : JobQueue × List JobRecord × HttpResponseM :=
  match fetch_job job_id db with
  | some record =>
    if record.state = "Finished" ∨ record.state = "Canceled" then
      ((handle_job_submission job_id q blocking record.submission
          (revert_job_to_queueing job_id now db).2 now).1,
        (revert_job_to_queueing job_id now db).1,
        (handle_job_submission job_id q blocking record.submission
          (revert_job_to_queueing job_id now db).2 now).2)
    else (q, db, .err ("ERR_INVALID_STATE") 2)
  | none => (q, db, .err ("ERR_NOT_FOUND") 3)

/-- Model of `delete_job_handler` (`routes/jobs/delete.rs`): try to remove
the message from the queue by id; if removed, mark the job Canceled with
all cases Skipped; otherwise `ERR_INVALID_STATE` when the job exists and
`ERR_NOT_FOUND` when it does not. -/
def delete_job_handler (q : JobQueue) (db : List JobRecord) (job_id : Nat) (now : String) :
    JobQueue × List JobRecord × HttpResponseM :=
  if (q.cancel_job job_id).2 then
    ((q.cancel_job job_id).1, update_job_to_canceled job_id now db, .okEmpty)
  else if find_job job_id db then (q, db, .err ("ERR_INVALID_STATE") 2)
  else (q, db, .err ("ERR_NOT_FOUND") 3)

/-- Modelled from the spec: the `JobsQueryParams` struct is declared in the
jobs routes module missing from the sources; §4.1 and its use in
`fetch_jobs_by_query` fix its fields (`from` and `to` are written
`fromTime` and `toTime` since they are reserved words). -/
structure JobsQueryParams where
  user_id : Option Nat
  user_name : Option String
  contest_id : Option Nat
  problem_id : Option Nat
  language : Option String
  fromTime : Option String
  toTime : Option String
  state : Option String
  result : Option String
deriving DecidableEq

/-- Stable insertion used to model `Vec::sort_by` on `created_time`
(string comparison, as `String::cmp`). -/
def insertByCreated (x : JobRecord) : List JobRecord → List JobRecord
  | [] => [x]
  | y :: ys =>
    if cmpStr x.created_time y.created_time ≠ .gt then x :: y :: ys
    else y :: insertByCreated x ys

/-- Model of `db::fetch_jobs_by_query` (`database.rs:410-521`): keep the
jobs matching every present filter (`from`/`to` are plain string bounds on
`created_time`, exactly as the SQL binds them), sorted by
`created_time`. -/
def fetch_jobs_by_query (query : JobsQueryParams) (users : List User)
    (db : List JobRecord) : List JobRecord :=
  (db.filter (fun j =>
    (query.user_id.all (fun u => j.submission.user_id == u)) &&
    (query.user_name.all (fun un =>
      users.any (fun usr => usr.name == un && usr.id == j.submission.user_id))) &&
    (query.contest_id.all (fun c => j.submission.contest_id == c)) &&
    (query.problem_id.all (fun p => j.submission.problem_id == p)) &&
    (query.language.all (fun l => j.submission.language == l)) &&
    (query.fromTime.all (fun f => cmpStr f j.created_time ≠ Ordering.gt)) &&
    (query.toTime.all (fun t => cmpStr j.created_time t ≠ Ordering.gt)) &&
    (query.state.all (fun s => j.state == s)) &&
    (query.result.all (fun r => j.result == r)))).foldr insertByCreated []

/-- Model of `get_jobs_handler` (`routes/jobs/get.rs:3-32`): only the
`from` parameter is parsed (`DateTime::parse_from_rfc3339` enters as the
external predicate `parse_ok`); on parse failure return
`ERR_INVALID_ARGUMENT`, otherwise the query result. -/
def get_jobs_handler (parse_ok : String → Bool) (query : JobsQueryParams)
    (users : List User) (db : List JobRecord) : HttpResponseM :=
  match query.fromTime with
  | some from_str =>
    if ¬ parse_ok from_str then .err ("ERR_INVALID_ARGUMENT") 1
    else .okList (fetch_jobs_by_query query users db)
  | none => .okList (fetch_jobs_by_query query users db)

/-- C4: PUT /jobs/{id} succeeds only when the job's state is Finished or
Canceled; any other existing job yields `ERR_INVALID_STATE`; on success the
job row is reset to Queueing/Waiting/score 0 and every one of its case
rows to Waiting/0/0/"". -/
theorem put_job_only_on_terminal_and_resets (q : JobQueue) (db : List JobRecord)
    (job_id : Nat) (blocking : Bool) (now : String) :
    (∀ r, fetch_job job_id db = some r → r.state ≠ "Finished" → r.state ≠ "Canceled" →
      put_job_handler q db job_id blocking now = (q, db, .err ("ERR_INVALID_STATE") 2)) ∧
    (∀ r, fetch_job job_id db = some r → (r.state = "Finished" ∨ r.state = "Canceled") →
      ((put_job_handler q db job_id blocking now).2.2.isErr = false ∧
        ∀ j ∈ (put_job_handler q db job_id blocking now).2.1, j.id = job_id →
          j.state = "Queueing" ∧ j.result = "Waiting" ∧ j.score = 0 ∧
          ∀ c ∈ j.cases, c.result = "Waiting" ∧ c.time = 0 ∧ c.memory = 0 ∧ c.info = "")) ∧
    ((put_job_handler q db job_id blocking now).2.2.isErr = false →
      ∃ r, fetch_job job_id db = some r ∧ (r.state = "Finished" ∨ r.state = "Canceled")) := by
  refine ⟨?_, ?_, ?_⟩
  · intro r hr h1 h2
    simp only [put_job_handler, hr]
    rw [if_neg (by simp [h1, h2])]
  · intro r hr hrs
    simp only [put_job_handler, hr]
    rw [if_pos hrs]
    constructor
    · cases blocking <;> simp [handle_job_submission, HttpResponseM.isErr]
    · intro j hj hjid
      simp only [revert_job_to_queueing] at hj
      obtain ⟨j0, hj0, hj0eq⟩ := List.mem_map.mp hj
      by_cases hid : j0.id = job_id
      · rw [if_pos hid] at hj0eq
        subst hj0eq
        refine ⟨rfl, rfl, rfl, ?_⟩
        intro c hc
        obtain ⟨c0, hc0, hc0eq⟩ := List.mem_map.mp hc
        subst hc0eq
        exact ⟨rfl, rfl, rfl, rfl⟩
      · rw [if_neg hid] at hj0eq
        subst hj0eq
        exact absurd hjid hid
  · intro hsucc
    cases hf : fetch_job job_id db with
    | none =>
      simp only [put_job_handler, hf] at hsucc
      simp [HttpResponseM.isErr] at hsucc
    | some r =>
      by_cases hrs : r.state = "Finished" ∨ r.state = "Canceled"
      · exact ⟨r, rfl, hrs⟩
      · simp only [put_job_handler, hf] at hsucc
        rw [if_neg hrs] at hsucc
        simp [HttpResponseM.isErr] at hsucc

/-- Concrete records for the C4 and C6 witnesses. -/
def c4job0 : JobRecord :=
  { id := 0, created_time := "t0", updated_time := "t0"
    submission := { user_id := 0, contest_id := 0, problem_id := 0,
                    source_code := "s", language := "py" }
    state := "Finished", result := "Accepted", score := 100
    cases := [⟨0, "Compilation Success", 3, 4, "x"⟩, ⟨1, "Accepted", 5, 6, "y"⟩,
              ⟨2, "Accepted", 7, 8, "z"⟩] }

def c4job1 : JobRecord :=
  { id := 1, created_time := "t0", updated_time := "t0"
    submission := { user_id := 0, contest_id := 0, problem_id := 0,
                    source_code := "s", language := "py" }
    state := "Running", result := "Running", score := 0
    cases := [⟨0, "Running", 0, 0, ""⟩, ⟨1, "Waiting", 0, 0, ""⟩] }

def c4db : List JobRecord := [c4job0, c4job1]

/-- C4 witness: a Running job is rejected with `ERR_INVALID_STATE`; a
Finished job is accepted. -/
theorem put_job_only_on_terminal_and_resets_witness :
    (put_job_handler ⟨[]⟩ c4db 1 false "t1" = (⟨[]⟩, c4db, .err ("ERR_INVALID_STATE") 2)) ∧
    ((put_job_handler ⟨[]⟩ c4db 0 false "t1").2.2.isErr = false) := by
  have h1 := put_job_only_on_terminal_and_resets ⟨[]⟩ c4db 1 false "t1"
  have h0 := put_job_only_on_terminal_and_resets ⟨[]⟩ c4db 0 false "t1"
  exact ⟨h1.1 c4job1 (by decide) (by decide) (by decide),
    (h0.2.1 c4job0 (by decide) (by decide)).1⟩

/-- C5: DELETE /jobs/{id} — when a queued message with the id exists it is
removed and the job is set to Canceled/Skipped with every case row
Skipped; when nothing was removed the response is `ERR_INVALID_STATE` for
an existing job (including an already-canceled one) and `ERR_NOT_FOUND`
otherwise. -/
theorem delete_job_cancel_invalid_state_not_found (q : JobQueue) (db : List JobRecord)
    (job_id : Nat) (now : String) :
    ((∃ m ∈ q.queue, m.id = job_id) →
      (delete_job_handler q db job_id now =
        ((q.cancel_job job_id).1, update_job_to_canceled job_id now db, .okEmpty)) ∧
      ∀ j ∈ update_job_to_canceled job_id now db, j.id = job_id →
        j.state = "Canceled" ∧ j.result = "Skipped" ∧
        ∀ c ∈ j.cases, c.result = "Skipped") ∧
    ((∀ m ∈ q.queue, m.id ≠ job_id) → find_job job_id db = true →
      delete_job_handler q db job_id now = (q, db, .err ("ERR_INVALID_STATE") 2)) ∧
    ((∀ m ∈ q.queue, m.id ≠ job_id) → find_job job_id db = false →
      delete_job_handler q db job_id now = (q, db, .err ("ERR_NOT_FOUND") 3)) := by
  refine ⟨?_, ?_, ?_⟩
  · intro hex
    have hrem : (q.cancel_job job_id).2 = true := (cancel_job_snd_iff q job_id).mpr hex
    constructor
    · unfold delete_job_handler
      rw [hrem]
      simp
    · intro j hj hjid
      simp only [update_job_to_canceled] at hj
      obtain ⟨j0, hj0, hj0eq⟩ := List.mem_map.mp hj
      by_cases hid : j0.id = job_id
      · rw [if_pos hid] at hj0eq
        subst hj0eq
        refine ⟨rfl, rfl, ?_⟩
        intro c hc
        obtain ⟨c0, hc0, hc0eq⟩ := List.mem_map.mp hc
        subst hc0eq
        rfl
      · rw [if_neg hid] at hj0eq
        subst hj0eq
        exact absurd hjid hid
  · intro hall hfind
    have hrem : (q.cancel_job job_id).2 = false := (cancel_job_snd_false_iff q job_id).mpr hall
    unfold delete_job_handler
    rw [hrem, hfind]
    simp
  · intro hall hfind
    have hrem : (q.cancel_job job_id).2 = false := (cancel_job_snd_false_iff q job_id).mpr hall
    unfold delete_job_handler
    rw [hrem, hfind]
    simp

/-- Concrete state for the C5 witness: job 5 queued, job 7 already
canceled, job 9 nonexistent. -/
def c5job5 : JobRecord :=
  { id := 5, created_time := "t0", updated_time := "t0"
    submission := { user_id := 0, contest_id := 0, problem_id := 0,
                    source_code := "s", language := "py" }
    state := "Queueing", result := "Waiting", score := 0
    cases := [⟨0, "Waiting", 0, 0, ""⟩, ⟨1, "Waiting", 0, 0, ""⟩] }

def c5job7 : JobRecord :=
  { id := 7, created_time := "t0", updated_time := "t0"
    submission := { user_id := 0, contest_id := 0, problem_id := 0,
                    source_code := "s", language := "py" }
    state := "Canceled", result := "Skipped", score := 0
    cases := [⟨0, "Skipped", 0, 0, ""⟩, ⟨1, "Skipped", 0, 0, ""⟩] }

def c5db : List JobRecord := [c5job5, c5job7]

def c5q : JobQueue := ⟨[JobMessage.fireAndForget 5]⟩

/-- C5 witness: the three branches at concrete states — a queued job is
canceled, a second DELETE of the already-canceled job 7 is
`ERR_INVALID_STATE`, an unknown id is `ERR_NOT_FOUND`. -/
theorem delete_job_cancel_invalid_state_not_found_witness :
    (delete_job_handler c5q c5db 5 "t1" =
      ((c5q.cancel_job 5).1, update_job_to_canceled 5 ("t1") c5db, .okEmpty)) ∧
    (delete_job_handler c5q c5db 7 "t1" = (c5q, c5db, .err ("ERR_INVALID_STATE") 2)) ∧
    (delete_job_handler c5q c5db 9 "t1" = (c5q, c5db, .err ("ERR_NOT_FOUND") 3)) := by
  have h5 := delete_job_cancel_invalid_state_not_found c5q c5db 5 ("t1")
  have h7 := delete_job_cancel_invalid_state_not_found c5q c5db 7 ("t1")
  have h9 := delete_job_cancel_invalid_state_not_found c5q c5db 9 ("t1")
  exact ⟨(h5.1 (by decide)).1, h7.2.1 (by decide) (by decide), h9.2.2 (by decide) (by decide)⟩

/-- Concrete data for C6: a problem with two configured cases, whose
finished job has the invariant-mandated 3 case rows. -/
def c6sub : JobSubmission :=
  { user_id := 0, contest_id := 0, problem_id := 0, source_code := "s", language := "py" }

def c6problem : OneProblemConfig :=
  { id := 0, name := "p", judge_type := .standard
    cases := [{ score := 50, input_file := "1.in", answer_file := "1.ans",
                time_limit := 1000000, memory_limit := 1024 },
              { score := 50, input_file := "2.in", answer_file := "2.ans",
                time_limit := 1000000, memory_limit := 1024 }] }

def c6job : JobRecord :=
  { id := 0, created_time := "t0", updated_time := "t0", submission := c6sub
    state := "Finished", result := "Accepted", score := 100
    cases := [⟨0, "Compilation Success", 0, 0, ""⟩, ⟨1, "Accepted", 0, 0, ""⟩,
              ⟨2, "Accepted", 0, 0, ""⟩] }

/-- C6: the record synthesized by non-blocking POST has
`1 + len(problem.cases)` case rows, but the one synthesized by non-blocking
PUT has `2 + len(problem.cases)` rows — `put_job_handler` passes the number
of reverted case rows (which already includes the compile row) as
`cases_count`, and `handle_job_submission` adds one more.  Evaluated at a
problem with 2 configured cases: POST yields 3 rows, PUT yields 4. -/
theorem put_nonblocking_response_has_extra_case_row :
    c6problem.cases.length = 2 ∧
    c6job.cases.length = 3 ∧
    (match (handle_job_submission 9 ⟨[]⟩ false c6sub c6problem.cases.length "t1").2 with
      | .okRecord r => r.cases.length
      | _ => 0) = 3 ∧
    (match (put_job_handler ⟨[]⟩ [c6job] 0 false "t1").2.2 with
      | .okRecord r => r.cases.length
      | _ => 0) = 4 := by
  refine ⟨rfl, rfl, rfl, rfl⟩

/-- Concrete query for C8: no `from`, malformed `to`. -/
def c8query : JobsQueryParams :=
  { user_id := none, user_name := none, contest_id := none, problem_id := none
    language := none, fromTime := none, toTime := some ("invalid-date")
    state := none, result := none }

/-- Concrete query for C8: the same malformed value in `from`. -/
def c8queryFrom : JobsQueryParams :=
  { user_id := none, user_name := none, contest_id := none, problem_id := none
    language := none, fromTime := some ("invalid-date"), toTime := none
    state := none, result := none }

/-- C8: `get_jobs_handler` validates only `from`.  With a parser that
rejects every string (in particular "invalid-date"), a request whose `to`
is malformed still returns the job list, while the same malformed value in
`from` is rejected with `ERR_INVALID_ARGUMENT` (code 1). -/
theorem get_jobs_malformed_to_not_rejected :
    ((fun _ => false : String → Bool) ("invalid-date")) = false ∧
    c8query.toTime = some ("invalid-date") ∧
    get_jobs_handler (fun _ => false) c8query [] [] = .okList [] ∧
    get_jobs_handler (fun _ => false) c8queryFrom [] [] =
      .err ("ERR_INVALID_ARGUMENT") 1 := by
  refine ⟨rfl, rfl, rfl, rfl⟩

/-! ## Ranklist aggregation (`db::get_global_ranklist`, `database.rs:620-826`)

`HashMap<u32, f64>` becomes an association list (its values' sum does not
depend on iteration order), `Ordering` comparisons on `f64`/`u32` become
`cmpv` over a linear order, and `String` comparisons of RFC-3339
timestamps become the byte-lexicographic `cmpStr`. -/

/-- Model of `Iterator::max_by`: the last element that is maximal under the
comparator. -/
def rustMaxBy {α : Type} (cmp : α → α → Ordering) (l : List α) : Option α :=
  l.foldl (fun acc y =>
    match acc with
    | none => some y
    | some x => if cmp x y = .gt then some x else some y) none

/-- Model of `contests::UserScore`; `problem_scores` is the `HashMap` as an
association list. -/
structure UserScore where
  user_id : Nat
  user_name : String
  problem_scores : List (Nat × ℚ)
  total_score : ℚ
  latest_submission_time : Option String
  submission_count : Nat
deriving DecidableEq

/-- `HashMap::insert`: replace the binding if present, else append. -/
def insertScore (m : List (Nat × ℚ)) (k : Nat) (v : ℚ) : List (Nat × ℚ) :=
  if m.any (fun p => p.1 = k) then m.map (fun p => if p.1 = k then (k, v) else p)
  else m ++ [(k, v)]

/-- Model of `db::get_user_jobs`: every job of the user — regardless of its
state — ordered by `created_time`. -/
def get_user_jobs (user_id : Nat) (db : List JobRecord) : List JobRecord :=
  (db.filter (fun j => j.submission.user_id = user_id)).foldr insertByCreated []

/-- The representative-job selection of `get_global_ranklist`
(`database.rs:668-690`): `latest` takes `max_by_key` on `created_time`,
`highest` takes `max_by` on score with the **later** `created_time` ranked
lower (so ties prefer the earliest submission); any other rule selects
nothing. -/
def chooseRepresentative (scoring_rule : String) (problem_jobs : List JobRecord) :
    Option JobRecord :=
  if scoring_rule = "latest" then
    rustMaxBy (fun a b => cmpStr a.created_time b.created_time) problem_jobs
  else if scoring_rule = "highest" then
    rustMaxBy (fun a b =>
      (cmpv a.score b.score).then (cmpStr b.created_time a.created_time)) problem_jobs
  else none

/-- The per-user scoring loop of `get_global_ranklist`
(`database.rs:640-709`): zero every configured problem, pick a
representative among the user's jobs with a matching `problem_id` (no
state filter appears in the source), record its score, track the latest
scoring-used submission time, and total the scores. -/
def computeUserScore (scoring_rule : String) (problem_ids : List Nat) (user : User)
    (jobs : List JobRecord) : UserScore :=
  let init : UserScore :=
    { user_id := user.id
      user_name := user.name
      problem_scores := problem_ids.foldl (fun m pid => insertScore m pid 0) []
      total_score := 0
      latest_submission_time := none
      submission_count := jobs.length }
  let afterProblems := problem_ids.foldl (fun us pid =>
    let problem_jobs := jobs.filter (fun job => job.submission.problem_id = pid)
    if problem_jobs ≠ [] then
      match chooseRepresentative scoring_rule problem_jobs with
      | some job =>
        { us with
          problem_scores := insertScore us.problem_scores pid job.score
          latest_submission_time :=
            if (match us.latest_submission_time with
                | none => true
                | some t => decide (cmpStr t job.created_time = .lt)) = true then
              some job.created_time
            else us.latest_submission_time }
      | none => us
    else us) init
  { afterProblems with
    total_score := (afterProblems.problem_scores.map Prod.snd).sum }

/-- Concrete jobs for C2: the same user submitted problem 0 twice; the
first submission finished with score 100, the second is still queueing
with score 0. -/
def c2finished : JobRecord :=
  { id := 0, created_time := "2024-01-01T00:00:00.000Z"
    updated_time := "2024-01-01T00:00:10.000Z"
    submission := { user_id := 3, contest_id := 0, problem_id := 0,
                    source_code := "s", language := "py" }
    state := "Finished", result := "Accepted", score := 100
    cases := [⟨0, "Compilation Success", 0, 0, ""⟩, ⟨1, "Accepted", 0, 0, ""⟩] }

def c2queueing : JobRecord :=
  { id := 1, created_time := "2024-01-02T00:00:00.000Z"
    updated_time := "2024-01-02T00:00:00.000Z"
    submission := { user_id := 3, contest_id := 0, problem_id := 0,
                    source_code := "s", language := "py" }
    state := "Queueing", result := "Waiting", score := 0
    cases := [⟨0, "Waiting", 0, 0, ""⟩, ⟨1, "Waiting", 0, 0, ""⟩] }

def c2db : List JobRecord := [c2finished, c2queueing]

def c2user : User := ⟨3, "u"⟩

/-- C2 evaluation: `get_user_jobs` applies no state filter, so under the
default `latest` rule the ranklist's representative for problem 0 is the
still-queueing job (score 0, submitted later), not the finished job with
score 100; the queueing job's `created_time` also becomes the scoring-used
submission time. -/
theorem ranklist_representative_from_unfinished_job :
    get_user_jobs 3 c2db = [c2finished, c2queueing] ∧
    c2queueing.state = "Queueing" ∧
    chooseRepresentative ("latest")
      ((get_user_jobs 3 c2db).filter (fun job => job.submission.problem_id = 0)) =
      some c2queueing ∧
    (computeUserScore ("latest") [0] c2user (get_user_jobs 3 c2db)).problem_scores =
      [(0, 0)] ∧
    (computeUserScore ("latest") [0] c2user (get_user_jobs 3 c2db)).latest_submission_time =
      some ("2024-01-02T00:00:00.000Z") ∧
    c2finished.score = 100 := by
  refine ⟨by decide, rfl, by decide, by decide, by decide, by decide⟩

/-! ## Ranklist sorting comparator and dense-rank assignment
(`database.rs:712-802`) -/

/-- The tie-breaker comparison inside `sort_unstable_by`
(`database.rs:722-741`). -/
def tie_cmp (tie_breaker : String) (a b : UserScore) : Ordering :=
  if tie_breaker = "submission_time" then
    match a.latest_submission_time, b.latest_submission_time with
    | some a_time, some b_time => cmpStr a_time b_time
    | some _, none => .lt
    | none, some _ => .gt
    | none, none => .eq
  else if tie_breaker = "submission_count" then
    cmpv a.submission_count b.submission_count
  else if tie_breaker = "user_id" then
    cmpv a.user_id b.user_id
  else .eq

/-- The `sort_unstable_by` comparator of `get_global_ranklist`: total score
descending, then the selected tie-breaker. -/
def compare_user_scores (tie_breaker : String) (a b : UserScore) : Ordering :=
  match cmpv b.total_score a.total_score with
  | .eq => tie_cmp tie_breaker a b
  | o => o

/-- The `tie_broken` boolean of the rank-assignment loop
(`database.rs:760-774`). -/
def tie_broken (tie_breaker : String) (curr prev : UserScore) : Bool :=
  if tie_breaker = "submission_time" then
    match curr.latest_submission_time, prev.latest_submission_time with
    | some curr_time, some prev_time => curr_time ≠ prev_time
    | none, none => false
    | _, _ => true
  else if tie_breaker = "submission_count" then
    curr.submission_count ≠ prev.submission_count
  else if tie_breaker = "user_id" then
    curr.user_id ≠ prev.user_id
  else false

/-- The rank-assignment loop of `get_global_ranklist`
(`database.rs:747-802`), projected to the assigned ranks: starting from
rank 1, a user at `index > 0` gets rank `index + 1` when its total score is
strictly below the previous user's or the tie-breaker distinguishes them,
and the previous user's rank otherwise. -/
def assignRanksAux (tie_breaker : String) (prev : UserScore) (idx current_rank : Nat) :
    List UserScore → List Nat
  | [] => []
  | u :: rest =>
    let r := if u.total_score < prev.total_score then idx + 1
      else if tie_broken tie_breaker u prev then idx + 1
      else current_rank
    r :: assignRanksAux tie_breaker u (idx + 1) r rest

def assignRanks (tie_breaker : String) : List UserScore → List Nat
  | [] => []
  | u :: rest => 1 :: assignRanksAux tie_breaker u 1 1 rest

/-- Number of users strictly better than `x` under the active
comparator. -/
def countStrictlyBetter (tie_breaker : String) (l : List UserScore) (x : UserScore) : Nat :=
  (l.filter (fun v => compare_user_scores tie_breaker v x = .lt)).length

def dfltUS : UserScore := ⟨0, "", [], 0, none, 0⟩

/-! ### Order-theoretic facts about the comparator -/

theorem cmpv_eq_lt {α : Type} [LinearOrder α] {a b : α} : cmpv a b = .lt ↔ a < b := by
  unfold cmpv
  split_ifs with h1 h2
  · simp [h1]
  · simp [h2, lt_irrefl]
  · simp [h1]

theorem cmpv_eq_eq {α : Type} [LinearOrder α] {a b : α} : cmpv a b = .eq ↔ a = b := by
  unfold cmpv
  split_ifs with h1 h2
  · simp [ne_of_lt h1]
  · simp [h2]
  · simp [h2]

theorem cmpv_eq_gt {α : Type} [LinearOrder α] {a b : α} : cmpv a b = .gt ↔ b < a := by
  unfold cmpv
  split_ifs with h1 h2
  · simp [lt_asymm h1]
  · simp [h2, lt_irrefl]
  · simp [lt_of_le_of_ne (not_lt.mp h1) (fun he => h2 he.symm)]

/-- The three properties of a comparator that the rank analysis needs:
tied elements are interchangeable, `lt` and `gt` are mirror images, and
`lt` is transitive. -/
structure IsOrd {α : Type} (cmp : α → α → Ordering) : Prop where
  congr_of_eq : ∀ {a b : α}, cmp a b = .eq → ∀ v, cmp v a = cmp v b ∧ cmp a v = cmp b v
  swap_lt : ∀ {a b : α}, cmp a b = .lt ↔ cmp b a = .gt
  trans_lt : ∀ {a b c : α}, cmp a b = .lt → cmp b c = .lt → cmp a c = .lt

theorem IsOrd.swap_eq {α : Type} {cmp : α → α → Ordering} (h : IsOrd cmp) {a b : α}
    (hab : cmp a b = .eq) : cmp b a = .eq := by
  cases hba : cmp b a with
  | eq => rfl
  | lt =>
    have := h.swap_lt.mp hba
    rw [hab] at this
    exact Ordering.noConfusion this
  | gt =>
    have := h.swap_lt.mpr hba
    rw [hab] at this
    exact Ordering.noConfusion this

theorem IsOrd.irrefl_lt {α : Type} {cmp : α → α → Ordering} (h : IsOrd cmp) {a : α} :
    cmp a a ≠ .lt := by
  intro hlt
  have := h.swap_lt.mp hlt
  rw [hlt] at this
  exact Ordering.noConfusion this

theorem IsOrd.not_lt_of_le {α : Type} {cmp : α → α → Ordering} (h : IsOrd cmp) {a b : α}
    (hle : cmp a b ≠ .gt) : cmp b a ≠ .lt := by
  intro hlt
  exact hle (h.swap_lt.mp hlt)

theorem IsOrd.lt_of_le_of_lt {α : Type} {cmp : α → α → Ordering} (h : IsOrd cmp) {a b c : α}
    (hab : cmp a b ≠ .gt) (hbc : cmp b c = .lt) : cmp a c = .lt := by
  cases hab2 : cmp a b with
  | lt => exact h.trans_lt hab2 hbc
  | eq => exact ((h.congr_of_eq hab2 c).2).trans hbc
  | gt => exact absurd hab2 hab

theorem isOrd_cmpv {α : Type} [LinearOrder α] : IsOrd (fun a b : α => cmpv a b) := by
  refine ⟨?_, ?_, ?_⟩
  · intro a b hab v
    have : a = b := cmpv_eq_eq.mp hab
    subst this
    exact ⟨rfl, rfl⟩
  · intro a b
    rw [cmpv_eq_lt, cmpv_eq_gt]
  · intro a b c hab hbc
    exact cmpv_eq_lt.mpr (lt_trans (cmpv_eq_lt.mp hab) (cmpv_eq_lt.mp hbc))

theorem then_eq_lt (o p : Ordering) : o.then p = .lt ↔ o = .lt ∨ (o = .eq ∧ p = .lt) := by
  cases o <;> simp [Ordering.then]

theorem then_eq_eq (o p : Ordering) : o.then p = .eq ↔ o = .eq ∧ p = .eq := by
  cases o <;> simp [Ordering.then]

theorem then_eq_gt (o p : Ordering) : o.then p = .gt ↔ o = .gt ∨ (o = .eq ∧ p = .gt) := by
  cases o <;> simp [Ordering.then]

theorem IsOrd.comap {α β : Type} {cmp : β → β → Ordering} (h : IsOrd cmp) (k : α → β) :
    IsOrd (fun a b => cmp (k a) (k b)) := by
  refine ⟨?_, ?_, ?_⟩
  · intro a b hab v
    exact ⟨(h.congr_of_eq hab (k v)).1, (h.congr_of_eq hab (k v)).2⟩
  · intro a b
    exact h.swap_lt
  · intro a b c hab hbc
    exact h.trans_lt hab hbc

theorem IsOrd.flip {α : Type} {cmp : α → α → Ordering} (h : IsOrd cmp) :
    IsOrd (fun a b => cmp b a) := by
  refine ⟨?_, ?_, ?_⟩
  · intro a b hab v
    have hab2 : cmp a b = .eq := h.swap_eq hab
    exact ⟨(h.congr_of_eq hab2 v).2, (h.congr_of_eq hab2 v).1⟩
  · intro a b
    exact h.swap_lt
  · intro a b c hab hbc
    exact h.trans_lt hbc hab

theorem IsOrd.then_comb {α : Type} {f g : α → α → Ordering} (hf : IsOrd f) (hg : IsOrd g) :
    IsOrd (fun a b => (f a b).then (g a b)) := by
  refine ⟨?_, ?_, ?_⟩
  · intro a b hab v
    rw [then_eq_eq] at hab
    obtain ⟨hfe, hge⟩ := hab
    constructor
    · rw [(hf.congr_of_eq hfe v).1, (hg.congr_of_eq hge v).1]
    · rw [(hf.congr_of_eq hfe v).2, (hg.congr_of_eq hge v).2]
  · intro a b
    rw [then_eq_lt, then_eq_gt]
    constructor
    · rintro (hfl | ⟨hfe, hgl⟩)
      · exact Or.inl (hf.swap_lt.mp hfl)
      · exact Or.inr ⟨hf.swap_eq hfe, hg.swap_lt.mp hgl⟩
    · rintro (hfg | ⟨hfe, hgg⟩)
      · exact Or.inl (hf.swap_lt.mpr hfg)
      · exact Or.inr ⟨hf.swap_eq hfe, hg.swap_lt.mpr hgg⟩
  · intro a b c hab hbc
    rw [then_eq_lt] at hab hbc ⊢
    rcases hab with hfl | ⟨hfe, hgl⟩
    · rcases hbc with hfl2 | ⟨hfe2, _⟩
      · exact Or.inl (hf.trans_lt hfl hfl2)
      · exact Or.inl (((hf.congr_of_eq hfe2 a).1).symm.trans hfl)
    · rcases hbc with hfl2 | ⟨hfe2, hgl2⟩
      · exact Or.inl (((hf.congr_of_eq hfe c).2).trans hfl2)
      · refine Or.inr ⟨?_, ?_⟩
        · rw [(hf.congr_of_eq hfe2 a).1] at hfe
          exact hfe
        · exact hg.trans_lt hgl hgl2

theorem isOrd_const_eq {α : Type} : IsOrd (fun _ _ : α => Ordering.eq) := by
  refine ⟨?_, ?_, ?_⟩
  · intro a b _ v
    exact ⟨rfl, rfl⟩
  · intro a b
    constructor <;> (intro h; exact Ordering.noConfusion h)
  · intro a b c h
    exact Ordering.noConfusion h

theorem cmpCharList_eq_eq : ∀ {as bs : List Char}, cmpCharList as bs = .eq ↔ as = bs := by
  intro as
  induction as with
  | nil =>
    intro bs
    cases bs <;> simp [cmpCharList]
  | cons a as ih =>
    intro bs
    cases bs with
    | nil => simp [cmpCharList]
    | cons b bs =>
      simp only [cmpCharList, then_eq_eq, ih, List.cons.injEq, cmpv_eq_eq]
      constructor
      · rintro ⟨h1, h2⟩
        refine ⟨Char.ext (UInt32.toNat.inj ?_), h2⟩
        exact h1
      · rintro ⟨h1, h2⟩
        exact ⟨by rw [h1], h2⟩

theorem isOrd_cmpCharList : IsOrd cmpCharList := by
  refine ⟨?_, ?_, ?_⟩
  · intro a b hab v
    have : a = b := cmpCharList_eq_eq.mp hab
    subst this
    exact ⟨rfl, rfl⟩
  · intro a b
    constructor
    · intro h
      induction a generalizing b with
      | nil => cases b with
        | nil => exact Ordering.noConfusion h
        | cons y ys => rfl
      | cons x xs ih =>
        cases b with
        | nil => exact Ordering.noConfusion h
        | cons y ys =>
          simp only [cmpCharList, then_eq_lt] at h
          simp only [cmpCharList, then_eq_gt]
          rcases h with h1 | ⟨h1, h2⟩
          · exact Or.inl (by rw [cmpv_eq_gt]; exact cmpv_eq_lt.mp h1)
          · refine Or.inr ⟨?_, ih h2⟩
            rw [cmpv_eq_eq] at h1 ⊢
            exact h1.symm
    · intro h
      induction a generalizing b with
      | nil => cases b with
        | nil => exact Ordering.noConfusion h
        | cons y ys => rfl
      | cons x xs ih =>
        cases b with
        | nil => exact Ordering.noConfusion h
        | cons y ys =>
          simp only [cmpCharList, then_eq_gt] at h
          simp only [cmpCharList, then_eq_lt]
          rcases h with h1 | ⟨h1, h2⟩
          · exact Or.inl (by rw [cmpv_eq_lt]; exact cmpv_eq_gt.mp h1)
          · refine Or.inr ⟨?_, ih h2⟩
            rw [cmpv_eq_eq] at h1 ⊢
            exact h1.symm
  · intro a b c hab hbc
    induction a generalizing b c with
    | nil =>
      cases b with
      | nil => exact absurd hab (by simp [cmpCharList])
      | cons y ys =>
        cases c with
        | nil => exact Ordering.noConfusion hbc
        | cons z zs => rfl
    | cons x xs ih =>
      cases b with
      | nil => exact Ordering.noConfusion hab
      | cons y ys =>
        cases c with
        | nil => exact Ordering.noConfusion hbc
        | cons z zs =>
          simp only [cmpCharList, then_eq_lt] at hab hbc ⊢
          rcases hab with h1 | ⟨h1, h2⟩
          · rcases hbc with h3 | ⟨h3, h4⟩
            · exact Or.inl (cmpv_eq_lt.mpr
                (lt_trans (cmpv_eq_lt.mp h1) (cmpv_eq_lt.mp h3)))
            · rw [cmpv_eq_eq] at h3
              exact Or.inl (by rw [cmpv_eq_lt, ← h3]; exact cmpv_eq_lt.mp h1)
          · rcases hbc with h3 | ⟨h3, h4⟩
            · rw [cmpv_eq_eq] at h1
              exact Or.inl (by rw [cmpv_eq_lt, h1]; exact cmpv_eq_lt.mp h3)
            · rw [cmpv_eq_eq] at h1 h3
              exact Or.inr ⟨by rw [cmpv_eq_eq, h1, h3], ih h2 h4⟩

theorem cmpStr_eq_eq {a b : String} : cmpStr a b = .eq ↔ a = b := by
  unfold cmpStr
  rw [cmpCharList_eq_eq]
  constructor
  · intro h
    cases a
    cases b
    exact congrArg String.mk (by simpa using h)
  · intro h
    rw [h]

theorem isOrd_cmpStr : IsOrd cmpStr := by
  refine ⟨?_, ?_, ?_⟩
  · intro a b hab v
    have : a = b := cmpStr_eq_eq.mp hab
    subst this
    exact ⟨rfl, rfl⟩
  · intro a b
    exact isOrd_cmpCharList.swap_lt
  · intro a b c hab hbc
    exact isOrd_cmpCharList.trans_lt hab hbc

/-- The none-ranks-last comparison on optional submission times. -/
def cmpOptTime : Option String → Option String → Ordering
  | some x, some y => cmpStr x y
  | some _, none => .lt
  | none, some _ => .gt
  | none, none => .eq

theorem cmpOptTime_eq_eq {a b : Option String} : cmpOptTime a b = .eq ↔ a = b := by
  cases a <;> cases b <;> simp [cmpOptTime, cmpStr_eq_eq]

theorem isOrd_cmpOptTime : IsOrd cmpOptTime := by
  refine ⟨?_, ?_, ?_⟩
  · intro a b hab v
    have : a = b := cmpOptTime_eq_eq.mp hab
    subst this
    exact ⟨rfl, rfl⟩
  · intro a b
    cases a <;> cases b <;> simp [cmpOptTime]
    exact isOrd_cmpStr.swap_lt
  · intro a b c hab hbc
    cases a <;> cases b <;> cases c <;> simp [cmpOptTime] at hab hbc ⊢
    exact isOrd_cmpStr.trans_lt hab hbc

theorem tie_cmp_time_eq (a b : UserScore) :
    tie_cmp ("submission_time") a b =
      cmpOptTime a.latest_submission_time b.latest_submission_time := by
  unfold tie_cmp
  rw [if_pos rfl]
  cases a.latest_submission_time <;> cases b.latest_submission_time <;> rfl

theorem isOrd_tie_cmp (tb : String) : IsOrd (tie_cmp tb) := by
  by_cases h1 : tb = "submission_time"
  · subst h1
    have heq : tie_cmp ("submission_time") = fun a b =>
        cmpOptTime a.latest_submission_time b.latest_submission_time := by
      funext a b
      exact tie_cmp_time_eq a b
    rw [heq]
    exact isOrd_cmpOptTime.comap _
  · by_cases h2 : tb = "submission_count"
    · subst h2
      have heq : tie_cmp ("submission_count") = fun a b =>
          cmpv a.submission_count b.submission_count := by
        funext a b
        unfold tie_cmp
        rw [if_neg (by decide), if_pos rfl]
      rw [heq]
      exact isOrd_cmpv.comap _
    · by_cases h3 : tb = "user_id"
      · subst h3
        have heq : tie_cmp ("user_id") = fun a b => cmpv a.user_id b.user_id := by
          funext a b
          unfold tie_cmp
          rw [if_neg (by decide), if_neg (by decide), if_pos rfl]
        rw [heq]
        exact isOrd_cmpv.comap _
      · have heq : tie_cmp tb = fun _ _ => Ordering.eq := by
          funext a b
          unfold tie_cmp
          rw [if_neg h1, if_neg h2, if_neg h3]
        rw [heq]
        exact isOrd_const_eq

theorem cus_eq_then (tb : String) (a b : UserScore) :
    compare_user_scores tb a b =
      (cmpv b.total_score a.total_score).then (tie_cmp tb a b) := by
  unfold compare_user_scores Ordering.then
  cases cmpv b.total_score a.total_score <;> rfl

theorem isOrd_cus (tb : String) : IsOrd (compare_user_scores tb) := by
  have heq : compare_user_scores tb = fun a b =>
      ((fun x y : UserScore => cmpv x.total_score y.total_score) b a).then
        (tie_cmp tb a b) := by
    funext a b
    exact cus_eq_then tb a b
  rw [heq]
  exact ((isOrd_cmpv.comap (fun u : UserScore => u.total_score)).flip).then_comb
    (isOrd_tie_cmp tb)

theorem tie_broken_iff_ne (tb : String) (u prev : UserScore) :
    tie_broken tb u prev = true ↔ tie_cmp tb prev u ≠ .eq := by
  by_cases h1 : tb = "submission_time"
  · subst h1
    rw [tie_cmp_time_eq]
    show (tie_broken ("submission_time") u prev = true) ↔ _
    unfold tie_broken
    rw [if_pos rfl]
    cases hc : u.latest_submission_time <;> cases hp : prev.latest_submission_time <;>
      simp [cmpOptTime, cmpStr_eq_eq]
    exact ne_comm
  · by_cases h2 : tb = "submission_count"
    · subst h2
      unfold tie_broken tie_cmp
      rw [if_neg (by decide), if_pos rfl, if_neg (by decide), if_pos rfl]
      simp [cmpv_eq_eq]
      exact ne_comm
    · by_cases h3 : tb = "user_id"
      · subst h3
        unfold tie_broken tie_cmp
        rw [if_neg (by decide), if_neg (by decide), if_pos rfl,
          if_neg (by decide), if_neg (by decide), if_pos rfl]
        simp [cmpv_eq_eq]
        exact ne_comm
      · unfold tie_broken tie_cmp
        rw [if_neg h1, if_neg h2, if_neg h3, if_neg h1, if_neg h2, if_neg h3]
        simp

theorem csb_congr (tb : String) (l : List UserScore) {x y : UserScore}
    (hxy : compare_user_scores tb x y = .eq) :
    countStrictlyBetter tb l x = countStrictlyBetter tb l y := by
  unfold countStrictlyBetter
  congr 1
  apply List.filter_congr
  intro v _
  simp [((isOrd_cus tb).congr_of_eq hxy v).1]

theorem csb_append_middle (tb : String) (pre rest : List UserScore) (prev u : UserScore)
    (hpw : (pre ++ prev :: u :: rest).Pairwise
      (fun a b => compare_user_scores tb a b ≠ .gt))
    (hlt : compare_user_scores tb prev u = .lt) :
    countStrictlyBetter tb (pre ++ prev :: u :: rest) u = pre.length + 1 := by
  obtain ⟨hpre, hmid, hcross⟩ := List.pairwise_append.mp hpw
  have hprevrest := List.pairwise_cons.mp hmid
  have hurest := List.pairwise_cons.mp hprevrest.2
  unfold countStrictlyBetter
  rw [List.filter_append]
  have h1 : pre.filter (fun v => compare_user_scores tb v u = .lt) = pre := by
    apply List.filter_eq_self.mpr
    intro v hv
    have hvprev : compare_user_scores tb v prev ≠ .gt :=
      hcross v hv prev (List.mem_cons_self _ _)
    simp [(isOrd_cus tb).lt_of_le_of_lt hvprev hlt]
  have h2 : (prev :: u :: rest).filter (fun v => compare_user_scores tb v u = .lt) =
      [prev] := by
    rw [List.filter_cons_of_pos (by simp [hlt]), List.filter_cons_of_neg
      (by simp [(isOrd_cus tb).irrefl_lt])]
    rw [List.filter_eq_nil_iff.mpr]
    intro w hw
    have huw : compare_user_scores tb u w ≠ .gt := hurest.1 w hw
    simp [(isOrd_cus tb).not_lt_of_le huw]
  rw [h1, h2, List.length_append]
  rfl

theorem csb_head_zero (tb : String) (u : UserScore) (rest : List UserScore)
    (hpw : (u :: rest).Pairwise (fun a b => compare_user_scores tb a b ≠ .gt)) :
    countStrictlyBetter tb (u :: rest) u = 0 := by
  have hurest := List.pairwise_cons.mp hpw
  unfold countStrictlyBetter
  rw [List.filter_cons_of_neg (by simp [(isOrd_cus tb).irrefl_lt])]
  rw [List.filter_eq_nil_iff.mpr]
  · rfl
  · intro w hw
    have huw : compare_user_scores tb u w ≠ .gt := hurest.1 w hw
    simp [(isOrd_cus tb).not_lt_of_le huw]

/-- The boundary test of the rank loop fires exactly when the previous
user is strictly better, given the sorted order. -/
theorem rank_boundary (tb : String) (prev u : UserScore)
    (hle : compare_user_scores tb prev u ≠ .gt) :
    ((if u.total_score < prev.total_score then True
      else if tie_broken tb u prev then True else False) ↔
      compare_user_scores tb prev u = .lt) := by
  by_cases hlt : u.total_score < prev.total_score
  · rw [if_pos hlt]
    have h0 : cmpv u.total_score prev.total_score = .lt := cmpv_eq_lt.mpr hlt
    unfold compare_user_scores
    rw [h0]
    simp
  · rw [if_neg hlt]
    have h0 : cmpv u.total_score prev.total_score = .eq := by
      cases h : cmpv u.total_score prev.total_score with
      | lt => exact absurd (cmpv_eq_lt.mp h) hlt
      | eq => rfl
      | gt =>
        exfalso
        apply hle
        unfold compare_user_scores
        rw [h]
    have hcu : compare_user_scores tb prev u = tie_cmp tb prev u := by
      unfold compare_user_scores
      rw [h0]
    rw [hcu] at hle ⊢
    by_cases hbk : tie_broken tb u prev = true
    · rw [if_pos hbk]
      have hne := (tie_broken_iff_ne tb u prev).mp hbk
      cases h : tie_cmp tb prev u with
      | lt => simp
      | eq => exact absurd h hne
      | gt => exact absurd h hle
    · rw [if_neg hbk]
      have heq : tie_cmp tb prev u = .eq := by
        by_contra hne
        exact hbk ((tie_broken_iff_ne tb u prev).mpr hne)
      simp [heq]

theorem length_assignRanksAux (tb : String) (prev : UserScore) (idx cr : Nat)
    (rest : List UserScore) :
    (assignRanksAux tb prev idx cr rest).length = rest.length := by
  induction rest generalizing prev idx cr with
  | nil => rfl
  | cons u rest2 ih => simp [assignRanksAux, ih]

theorem assignRanksAux_spec (tb : String) :
    ∀ (rest pre : List UserScore) (prev : UserScore) (cr : Nat),
      (pre ++ prev :: rest).Pairwise (fun a b => compare_user_scores tb a b ≠ .gt) →
      cr = 1 + countStrictlyBetter tb (pre ++ prev :: rest) prev →
      ∀ i, i < rest.length →
        (assignRanksAux tb prev (pre.length + 1) cr rest).getD i 0 =
          1 + countStrictlyBetter tb (pre ++ prev :: rest) (rest.getD i dfltUS)
  | [], pre, prev, cr => by
    intro _ _ i hi
    simp at hi
  | u :: rest2, pre, prev, cr => by
    intro hpw hcr i hi
    have hle : compare_user_scores tb prev u ≠ .gt := by
      have hmid := (List.pairwise_append.mp hpw).2.1
      exact (List.pairwise_cons.mp hmid).1 u (List.mem_cons_self _ _)
    have hbdry := rank_boundary tb prev u hle
    have hr : (if u.total_score < prev.total_score then pre.length + 1 + 1
        else if tie_broken tb u prev then pre.length + 1 + 1 else cr) =
        1 + countStrictlyBetter tb (pre ++ prev :: u :: rest2) u := by
      by_cases hlt : u.total_score < prev.total_score
      · rw [if_pos hlt]
        have hlt2 : compare_user_scores tb prev u = .lt := hbdry.mp (by rw [if_pos hlt]; trivial)
        rw [csb_append_middle tb pre rest2 prev u hpw hlt2]
        omega
      · rw [if_neg hlt]
        by_cases hbk : tie_broken tb u prev = true
        · rw [if_pos hbk]
          have hlt2 : compare_user_scores tb prev u = .lt := by
            apply hbdry.mp
            rw [if_neg hlt, if_pos hbk]
            trivial
          rw [csb_append_middle tb pre rest2 prev u hpw hlt2]
          omega
        · rw [if_neg hbk]
          have hnotlt : compare_user_scores tb prev u ≠ .lt := by
            intro hl
            have := hbdry.mpr hl
            rw [if_neg hlt, if_neg hbk] at this
            exact this
          have heq : compare_user_scores tb prev u = .eq := by
            cases h : compare_user_scores tb prev u with
            | lt => exact absurd h hnotlt
            | eq => rfl
            | gt => exact absurd h hle
          rw [hcr, csb_congr tb (pre ++ prev :: u :: rest2) heq]
    cases i with
    | zero =>
      show (if u.total_score < prev.total_score then pre.length + 1 + 1
        else if tie_broken tb u prev then pre.length + 1 + 1 else cr) = _
      exact hr
    | succ i2 =>
      have hre : pre ++ prev :: u :: rest2 = (pre ++ [prev]) ++ u :: rest2 := by
        simp
      have hpw2 : ((pre ++ [prev]) ++ u :: rest2).Pairwise
          (fun a b => compare_user_scores tb a b ≠ .gt) := by
        rw [← hre]; exact hpw
      have hidx2 : (pre ++ [prev]).length + 1 = pre.length + 1 + 1 := by
        simp
      have hgoal := assignRanksAux_spec tb rest2 (pre ++ [prev]) u
        (if u.total_score < prev.total_score then pre.length + 1 + 1
          else if tie_broken tb u prev then pre.length + 1 + 1 else cr)
        hpw2 (by rw [hr, ← hre]) i2 (by simpa using hi)
      rw [hidx2, ← hre] at hgoal
      simp only [assignRanksAux, List.getD_cons_succ]
      exact hgoal

/-- C7: on a ranklist sorted by the active comparator (total score
descending, then the selected tie-breaker), the rank the loop of
`get_global_ranklist` assigns at each position equals 1 + the number of
users strictly better under that comparator, and users equal on every
criterion used share the same rank. -/
theorem ranklist_dense_rank_counts (tb : String) (l : List UserScore)
    (hpw : l.Pairwise (fun a b => compare_user_scores tb a b ≠ .gt)) :
    (assignRanks tb l).length = l.length ∧
    (∀ i, i < l.length →
      (assignRanks tb l).getD i 0 =
        1 + countStrictlyBetter tb l (l.getD i dfltUS)) ∧
    (∀ i j, i < l.length → j < l.length →
      compare_user_scores tb (l.getD i dfltUS) (l.getD j dfltUS) = .eq →
      (assignRanks tb l).getD i 0 = (assignRanks tb l).getD j 0) := by
  have hlen : (assignRanks tb l).length = l.length := by
    cases l with
    | nil => rfl
    | cons u rest => simp [assignRanks, length_assignRanksAux]
  have hrank : ∀ i, i < l.length →
      (assignRanks tb l).getD i 0 =
        1 + countStrictlyBetter tb l (l.getD i dfltUS) := by
    intro i hi
    cases l with
    | nil => simp at hi
    | cons u rest =>
      cases i with
      | zero =>
        show (1 : Nat) = 1 + countStrictlyBetter tb (u :: rest) u
        rw [csb_head_zero tb u rest hpw]
      | succ i2 =>
        have hpw2 : ([] ++ u :: rest).Pairwise
            (fun a b => compare_user_scores tb a b ≠ .gt) := by
          simpa using hpw
        have hcr : (1 : Nat) = 1 + countStrictlyBetter tb ([] ++ u :: rest) u := by
          have h0 : countStrictlyBetter tb (u :: rest) u = 0 :=
            csb_head_zero tb u rest hpw
          simp [h0]
        have hspec := assignRanksAux_spec tb rest [] u 1 hpw2 hcr i2 (by simpa using hi)
        simp only [assignRanks, List.getD_cons_succ]
        simpa using hspec
  refine ⟨hlen, hrank, ?_⟩
  intro i j hi hj heq
  rw [hrank i hi, hrank j hj, csb_congr tb l heq]

/-- Three concrete users, sorted by total score descending; the first two
are fully tied under the empty tie-breaker. -/
def c7l : List UserScore :=
  [⟨1, "alice", [], 10, none, 0⟩,
   ⟨2, "bob", [], 10, none, 0⟩,
   ⟨7, "carol", [], 5, none, 0⟩]

/-- Witness for C7 at a concrete sorted list. -/
theorem ranklist_dense_rank_counts_witness :
    c7l.Pairwise (fun a b => compare_user_scores ("") a b ≠ .gt) ∧
    ((assignRanks ("") c7l).length = c7l.length ∧
     (∀ i, i < c7l.length →
       (assignRanks ("") c7l).getD i 0 =
         1 + countStrictlyBetter ("") c7l (c7l.getD i dfltUS)) ∧
     (∀ i j, i < c7l.length → j < c7l.length →
       compare_user_scores ("") (c7l.getD i dfltUS) (c7l.getD j dfltUS) = .eq →
       (assignRanks ("") c7l).getD i 0 = (assignRanks ("") c7l).getD j 0)) :=
  ⟨by decide, ranklist_dense_rank_counts ("") c7l (by decide)⟩

end OJ
